import Mathlib

/-!
OpenCorpora dictionary reader: parser state machine, query filters and run modes.

A shallow embedding of `opencorpora/parser.go`, `opencorpora/query.go` and the two run
modes of `cmd/opencorpora-cli/main.go`.

* Go strings are modelled as lists of Unicode code points (`Str`); this is exact for
  inputs that are valid UTF-8.
* The `bufio.Scanner` that drives `Stream` is modelled by what it delivers: the list of
  physical lines handed out by successive `Scan()` calls, and the value of `Err()` once
  `Scan()` has returned false. `scanText` gives both for a reader that returns a given
  text in full, with the token limit `Stream` sets on its scanner.
* The context is modelled by the value `ctx.Err()` has when it is consulted for the
  line with a given index.
* A channel that is drained to its end is modelled by the list of values sent on it.
* Go maps used as sets are modelled by duplicate-free key lists.
* A goroutine that sends on an unbuffered channel gets past a send only when the value is
  received; a receiver that stops early is modelled by the number of values it takes.
-/

namespace OpenCorpora

/-- A Go string, as its sequence of code points. -/
abbrev Str := List Char

/-! ## Standard-library helpers used by the parser -/

/-- The predicate `unicode.IsSpace`: the Latin-1 white space characters and the other
code points with the White_Space property. -/
def isSpace (c : Char) : Bool :=
  let n := c.toNat
  (9 ≤ n && n ≤ 13) || n == 0x20 || n == 0x85 || n == 0xA0 || n == 0x1680 ||
    (0x2000 ≤ n && n ≤ 0x200A) || n == 0x2028 || n == 0x2029 || n == 0x202F ||
    n == 0x205F || n == 0x3000

/-- The function `strings.TrimSpace`: leading and trailing white space removed. -/
def TrimSpace (s : Str) : Str :=
  (s.dropWhile isSpace).rdropWhile isSpace

/-- The call `strings.SplitN(s, sep, 2)` for a one-character separator: the text before
the first separator and the text after it, or the whole text when there is none. -/
def SplitN2 (sep : Char) : Str → List Str
  | [] => [[]]
  | c :: cs =>
    if c = sep then [[], cs]
    else
      match SplitN2 sep cs with
      | [p0] => [c :: p0]
      | p0 :: ps => (c :: p0) :: ps
      | [] => [[c]]

/-- The call `strings.ReplaceAll(s, ",", " ")`. -/
def replaceCommas (s : Str) : Str :=
  s.map fun c => if c = ',' then ' ' else c

/-- Worker of `Fields`: `cur` is the field being read. -/
def fieldsFrom (cur : Str) : Str → List Str
  | [] => if cur = [] then [] else [cur]
  | c :: cs =>
    if isSpace c then
      if cur = [] then fieldsFrom [] cs else cur :: fieldsFrom [] cs
    else fieldsFrom (cur ++ [c]) cs

/-- The function `strings.Fields`: the maximal runs of non-space characters. -/
def Fields (s : Str) : List Str :=
  fieldsFrom [] s

/-- ASCII decimal digit test. -/
def isDigit (c : Char) : Bool :=
  48 ≤ c.toNat && c.toNat ≤ 57

/-- Value of a digit string read in base ten (most significant digit first). -/
def decimalValue (ds : Str) : Nat :=
  ds.foldl (fun n c => 10 * n + (c.toNat - 48)) 0

/-- The function `strconv.Atoi` for a 64-bit `int`: an optional sign followed by one or
more ASCII digits, with a value in the range of `int`; `none` stands for a non-nil error. -/
def Atoi (s : Str) : Option Int :=
  let neg := s.head? = some '-'
  let ds := if s.head? = some '-' ∨ s.head? = some '+' then s.tail else s
  if ds = [] then none
  else if ds.all isDigit then
    let n := decimalValue ds
    if neg then
      if n ≤ 2 ^ 63 then some (-(n : Int)) else none
    else
      if n < 2 ^ 63 then some (n : Int) else none
  else none

/-- The helper `dropCR` of `bufio`: one trailing carriage return is dropped. -/
def dropCR (s : Str) : Str :=
  if s.getLast? = some '\r' then s.dropLast else s

/-- Worker of `scanLines`: `cur` is the line being read. -/
def scanLinesFrom (cur : Str) : Str → List Str
  | [] => if cur = [] then [] else [dropCR cur]
  | c :: cs =>
    if c = '\n' then dropCR cur :: scanLinesFrom [] cs
    else scanLinesFrom (cur ++ [c]) cs

/-- The splitting done by `bufio.ScanLines`: the text is cut at every line feed, one
trailing carriage return is dropped from each line, and a last line without a line feed
is delivered when it is not empty. -/
def scanLines (text : Str) : List Str :=
  scanLinesFrom [] text

/-! ## Data model -/

/-- Modelled from the spec: the lookups `ParsePartOfSpeech` and `ParseGrammeme` are
generated code that is absent from the sources; they are taken as given, over arbitrary
code types `P` (part of speech) and `G` (grammeme). `none` stands for `ok == false`. -/
structure Vocabulary (P G : Type) where
  ParsePartOfSpeech : Str → Option P
  ParseGrammeme : Str → Option G

/-- Modelled from the spec: the declaration of `WordEntry` is absent from the sources;
its fields are the ones the parser and the queries read and write. -/
structure WordEntry (P G : Type) where
  LexemeID : Int
  Lemma : Str
  Form : Str
  POS : P
  Grammemes : List G
  deriving DecidableEq, Repr

/-- The errors `parseLine` builds with `fmt.Errorf`, one constructor per message. -/
inductive LineError where
  /-- `malformed line (expected word\tPOS,grammemes): %q` -/
  | malformed (line : Str)
  /-- `empty form or tags in line: %q` -/
  | emptyFormOrTags (line : Str)
  /-- `missing tags in line: %q` -/
  | missingTags (line : Str)
  /-- `unknown part of speech: %s` -/
  | unknownPartOfSpeech (token : Str)
  /-- `unknown grammeme: %s` -/
  | unknownGrammeme (token : Str)
  deriving DecidableEq, Repr

/-- The non-nil values of `ctx.Err()`. -/
inductive CtxError where
  | canceled
  | deadlineExceeded
  deriving DecidableEq, Repr

/-- The non-nil values of `scanner.Err()`: a line over the buffer limit, or a failure of
the underlying reader. -/
inductive ScanError where
  | tooLong
  | read
  deriving DecidableEq, Repr

/-- The errors `Stream` sends on its completion channel. -/
inductive StreamError where
  /-- the value of `ctx.Err()` -/
  | ctx (e : CtxError)
  /-- `encountered form before lexeme id: %s` -/
  | formBeforeID (line : Str)
  /-- `lexeme %d: %w` -/
  | lexeme (id : Int) (e : LineError)
  /-- `scan dictionary: %w` -/
  | scan (e : ScanError)
  deriving DecidableEq, Repr

/-! ## parser.go -/

/-- The function `splitTokens`. -/
def splitTokens (s : Str) : List Str :=
  Fields (replaceCommas s)

/-- The grammeme loop of `parseLine`: `grammemes` is the slice built so far and `seen`
the key set of the map `seen`. -/
def grammemeLoop {P G : Type} [DecidableEq G] (V : Vocabulary P G) :
    List Str → List G → List G → Except LineError (List G)
  | [], grammemes, _ => .ok grammemes
  | g :: rest, grammemes, seen =>
    match V.ParseGrammeme g with
    | none => .error (.unknownGrammeme g)
    | some gram =>
      if gram ∈ seen then grammemeLoop V rest grammemes seen
      else grammemeLoop V rest (grammemes ++ [gram]) (gram :: seen)

/-- The function `parseLine`. The entry it returns has the zero values of `LexemeID`
and `Lemma`. -/
def parseLine {P G : Type} [DecidableEq G] (V : Vocabulary P G) (line : Str) :
    Except LineError (WordEntry P G) :=
  match SplitN2 '\t' line with
  | [part0, part1] =>
    let form := TrimSpace part0
    let tokenStr := TrimSpace part1
    if form = [] ∨ tokenStr = [] then .error (.emptyFormOrTags line)
    else
      match splitTokens tokenStr with
      | [] => .error (.missingTags line)
      | posToken :: others =>
        match V.ParsePartOfSpeech posToken with
        | none => .error (.unknownPartOfSpeech posToken)
        | some pos =>
          match grammemeLoop V others [] [] with
          | .error e => .error e
          | .ok grammemes =>
            .ok { LexemeID := 0, Lemma := [], Form := form, POS := pos, Grammemes := grammemes }
  | _ => .error (.malformed line)

/-- What one pass through the body of the scanning loop of `Stream` does. -/
inductive Step (P G : Type) where
  /-- `continue`, or the end of the body: the loop goes on with these values of
  `lexemeID` and `lemma` (here `curLemma`), after sending `sent` on the entry channel
  when there is one -/
  | next (lexemeID : Int) (curLemma : Str) (sent : Option (WordEntry P G))
  /-- `errs <- err; return` -/
  | stop (err : StreamError)
  deriving DecidableEq, Repr

/-- The body of the scanning loop of `Stream`, for the scanned text `text`, with
`ctxErr` the value of `ctx.Err()` at that moment. -/
def loopBody {P G : Type} [DecidableEq G] (V : Vocabulary P G)
    (ctxErr : Option CtxError) (lexemeID : Int) (curLemma : Str) (text : Str) : Step P G :=
  match ctxErr with
  | some err => .stop (.ctx err)
  | none =>
    let line := TrimSpace text
    if line = [] then .next lexemeID curLemma none
    else
      match Atoi line with
      | some id => .next id [] none
      | none =>
        if lexemeID = 0 then .stop (.formBeforeID line)
        else
          match parseLine V line with
          | .error err => .stop (.lexeme lexemeID err)
          | .ok entry =>
            let lemma1 := if curLemma = [] then entry.Form else curLemma
            .next lexemeID lemma1 (some { entry with Lemma := lemma1, LexemeID := lexemeID })

/-- The scanning loop of `Stream` followed by its epilogue, from the line with index `i`
on: the entries sent on the entry channel, in order, and the value sent on the
completion channel. `ctx i` is the value of `ctx.Err()` when line `i` has been scanned,
`scanErr` the value of `scanner.Err()` after the last line. -/
def streamFrom {P G : Type} [DecidableEq G] (V : Vocabulary P G)
    (ctx : Nat → Option CtxError) (scanErr : Option ScanError) :
    Nat → Int → Str → List Str → List (WordEntry P G) × Option StreamError
  | _, _, _, [] =>
    match scanErr with
    | some err => ([], some (.scan err))
    | none => ([], none)
  | i, lexemeID, curLemma, text :: rest =>
    match loopBody V (ctx i) lexemeID curLemma text with
    | .stop err => ([], some err)
    | .next lexemeID1 lemma1 sent =>
      let r := streamFrom V ctx scanErr (i + 1) lexemeID1 lemma1 rest
      (sent.toList ++ r.1, r.2)

/-- The function `Stream`, read by a consumer that drains the entry channel: the
entries delivered and the value of the completion channel. -/
def Stream {P G : Type} [DecidableEq G] (V : Vocabulary P G)
    (ctx : Nat → Option CtxError) (lines : List Str) (scanErr : Option ScanError) :
    List (WordEntry P G) × Option StreamError :=
  streamFrom V ctx scanErr 0 0 [] lines

/-- The function `Parse`: the entries and the error it returns. -/
def Parse {P G : Type} [DecidableEq G] (V : Vocabulary P G)
    (ctx : Nat → Option CtxError) (lines : List Str) (scanErr : Option ScanError) :
    List (WordEntry P G) × Option StreamError :=
  let r := Stream V ctx lines scanErr
  match r.2 with
  | some err => ([], some err)
  | none => (r.1, none)

/-- A context that is never cancelled, such as `context.Background()`. -/
def background : Nat → Option CtxError :=
  fun _ => none

/-! ## query.go -/

/-- The loop `for _, g := range gs { m[g] = struct{}{} }` on an empty map: the key set it
builds, as a duplicate-free list. -/
def keySet {G : Type} [DecidableEq G] (gs : List G) : List G :=
  gs.foldl (fun m g => if g ∈ m then m else m ++ [g]) []

/-- The loop `for g := range wanted` of `containsAll`, with its early `return false`. -/
def allPresent {G : Type} [DecidableEq G] (haveSet : List G) : List G → Bool
  | [] => true
  | g :: rest => if g ∈ haveSet then allPresent haveSet rest else false

/-- The function `containsAll`; `wanted` is the key set of the map it receives. -/
def containsAll {G : Type} [DecidableEq G] (haveGs : List G) (wanted : List G) : Bool :=
  if wanted.length = 0 then true
  else allPresent (keySet haveGs) wanted

/-- The loop `for _, e := range entries { if keep(e) { out = append(out, e) } }`. -/
def appendLoop {E : Type} (keep : E → Bool) : List E → List E → List E
  | [], out => out
  | e :: rest, out =>
    if keep e then appendLoop keep rest (out ++ [e]) else appendLoop keep rest out

/-- The function `strings.EqualFold` on valid UTF-8: the two texts have the same number
of code points and corresponding code points are equal or related by `sameFold`, the
relation of being in one orbit of `unicode.SimpleFold` (a table of the standard library,
taken as given). -/
def EqualFold (sameFold : Char → Char → Bool) : Str → Str → Bool
  | [], [] => true
  | c :: cs, d :: ds => (c == d || sameFold c d) && EqualFold sameFold cs ds
  | _, _ => false

/-- The function `SearchByLemmaAndPOS`. -/
def SearchByLemmaAndPOS {P G : Type} [DecidableEq P] (sameFold : Char → Char → Bool)
    (entries : List (WordEntry P G)) (lemmaText : Str) (pos : P) : List (WordEntry P G) :=
  let normalizedLemma := TrimSpace lemmaText
  if normalizedLemma = [] then []
  else
    appendLoop (fun e => decide (e.POS = pos) && EqualFold sameFold e.Lemma normalizedLemma)
      entries []

/-- The function `FilterByGrammemes`. -/
def FilterByGrammemes {P G : Type} [DecidableEq G]
    (entries : List (WordEntry P G)) (grams : List G) : List (WordEntry P G) :=
  if grams.length = 0 then entries
  else
    let wanted := keySet grams
    appendLoop (fun e => containsAll e.Grammemes wanted) entries []

/-- The goroutine of `FilterStreamByGrammemes`: the values it sends on `out` while it
reads the values `entries` from its input channel. -/
def forwardLoop {E : Type} (keep : E → Bool) : List E → List E
  | [] => []
  | e :: rest => if keep e then e :: forwardLoop keep rest else forwardLoop keep rest

/-- The function `FilterStreamByGrammemes`, on an input channel that delivers `entries`
and is then closed: the entries delivered on the returned channel. -/
def FilterStreamByGrammemes {P G : Type} [DecidableEq G]
    (entries : List (WordEntry P G)) (grams : List G) : List (WordEntry P G) :=
  let wanted := keySet grams
  forwardLoop (fun e => containsAll e.Grammemes wanted) entries

/-! ## Reference notions used in the statements -/

/-- A list of codes with every later repetition of an earlier code removed. -/
def dropRepeats {G : Type} [DecidableEq G] : List G → List G
  | [] => []
  | g :: gs => g :: (dropRepeats gs).filter (fun x => decide (x ≠ g))

/-- The tag tokens of a form line: the tokens `splitTokens` yields on the trimmed text
after the first tab (no token when the line has no tab). -/
def tagTokens (line : Str) : List Str :=
  match SplitN2 '\t' line with
  | [_, part1] => splitTokens (TrimSpace part1)
  | _ => []

/-- The grammeme codes decoded from the tag tokens after the first one, in line order. -/
def decodedCodes {P G : Type} (V : Vocabulary P G) (line : Str) : List G :=
  (tagTokens line).tail.filterMap V.ParseGrammeme

/-- An integer literal as `strconv.Atoi` accepts it for a 64-bit `int`: one or more
ASCII digits, optionally preceded by one sign, with a value that fits. -/
def IsIntLiteral (s : Str) : Prop :=
  ∃ digits : Str, digits ≠ [] ∧ (∀ c ∈ digits, isDigit c = true) ∧
    ((s = digits ∧ decimalValue digits < 2 ^ 63)
      ∨ (s = '+' :: digits ∧ decimalValue digits < 2 ^ 63)
      ∨ (s = '-' :: digits ∧ decimalValue digits ≤ 2 ^ 63))

/-- The decode error a form line calls for: the unknown-part-of-speech error on its
first tag token when that token is not recognised, and otherwise the unknown-grammeme
error on the first later tag token that is not recognised; `none` when every tag token
is recognised or there is none. -/
def decodeError {P G : Type} (V : Vocabulary P G) (line : Str) : Option LineError :=
  match tagTokens line with
  | [] => none
  | posToken :: others =>
    match V.ParsePartOfSpeech posToken with
    | none => some (.unknownPartOfSpeech posToken)
    | some _ => (others.find? fun g => (V.ParseGrammeme g).isNone).map .unknownGrammeme

/-- The values of `lexemeID` and `lemma` once the scanning loop of `Stream` has gone
through `lines` (the first of them having index `i`) without stopping; `none` when one
of these lines stops the loop. -/
def stateAfter {P G : Type} [DecidableEq G] (V : Vocabulary P G)
    (ctx : Nat → Option CtxError) : Nat → Int → Str → List Str → Option (Int × Str)
  | _, lexemeID, curLemma, [] => some (lexemeID, curLemma)
  | i, lexemeID, curLemma, text :: rest =>
    match loopBody V (ctx i) lexemeID curLemma text with
    | .stop _ => none
    | .next lexemeID1 lemma1 _ => stateAfter V ctx (i + 1) lexemeID1 lemma1 rest

/-- A blank line: nothing but white space. -/
def isBlank (text : Str) : Bool :=
  text.all isSpace

/-- A well-formed id line: once trimmed, a non-empty run of decimal digits whose value
is not zero. -/
def isIdLine (text : Str) : Bool :=
  !(TrimSpace text).isEmpty && (TrimSpace text).all isDigit
    && decide (decimalValue (TrimSpace text) ≠ 0)

/-- The value of an id line. -/
def idValue (text : Str) : Int :=
  (decimalValue (TrimSpace text) : Int)

/-- A well-formed form line: once trimmed it has a tab, and the text after the first tab
yields a first token that is a recognised part of speech followed by tokens that are all
recognised grammemes. -/
def isFormLine {P G : Type} (V : Vocabulary P G) (text : Str) : Bool :=
  match tagTokens (TrimSpace text) with
  | [] => false
  | posToken :: others =>
    (V.ParsePartOfSpeech posToken).isSome && others.all fun t => (V.ParseGrammeme t).isSome

/-- The trimmed form text of a form line: the text before the first tab of the trimmed
line, trimmed. -/
def formText (text : Str) : Str :=
  TrimSpace ((TrimSpace text).takeWhile fun c => c != '\t')

/-- The lines of a block: its id line, then the lines that follow it up to the next id
line. -/
def blockLines (b : Str × List Str) : List Str :=
  b.1 :: b.2

/-- The form lines among the lines that follow an id line. -/
def formLines (body : List Str) : List Str :=
  body.filter fun l => !isBlank l

/-- What the blocks of a well-formed input call for: per form line, in file order, the
value of the id line of its block, the form text of the first form line of the block,
and its own form text. -/
def expectedEntries (blocks : List (Str × List Str)) : List (Int × Str × Str) :=
  (blocks.map fun b =>
    (formLines b.2).map fun l => (idValue b.1, formText ((formLines b.2).headD []), formText l)).flatten

/-- The block stamp and the form of an entry. -/
def WordEntry.key {P G : Type} (e : WordEntry P G) : Int × Str × Str :=
  (e.LexemeID, e.Lemma, e.Form)

/-! ## A small vocabulary for concrete evaluations -/

/-- Part-of-speech lookup of the sample vocabulary: `NOUN` and `ADJF`. -/
def samplePOS (s : Str) : Option Nat :=
  if s = "NOUN".toList then some 1
  else if s = "ADJF".toList then some 2
  else none

/-- Grammeme lookup of the sample vocabulary. -/
def sampleGrammeme (s : Str) : Option Nat :=
  if s = "anim".toList then some 1
  else if s = "masc".toList then some 2
  else if s = "sing".toList then some 3
  else if s = "nomn".toList then some 4
  else if s = "gent".toList then some 5
  else if s = "plur".toList then some 6
  else none

/-- The sample vocabulary. -/
def sampleVocabulary : Vocabulary Nat Nat :=
  { ParsePartOfSpeech := samplePOS, ParseGrammeme := sampleGrammeme }

/-- Case pairs of the basic Latin and Russian alphabets, a fragment of the orbit relation
of `unicode.SimpleFold` used for concrete evaluations. -/
def sampleFold (c d : Char) : Bool :=
  let a := min c.toNat d.toNat
  let b := max c.toNat d.toNat
  ((65 ≤ a && a ≤ 90) || (0x410 ≤ a && a ≤ 0x42F)) && b == a + 32

/-- A sample entry: the genitive singular of the noun with lemma `КОТ`. -/
def sampleNoun : WordEntry Nat Nat :=
  { LexemeID := 1, Lemma := "КОТ".toList, Form := "КОТА".toList, POS := 1,
    Grammemes := [1, 2, 3, 5] }

/-- A sample entry: the genitive plural of the adjective with lemma `БЫСТРЫЙ`, with its
grammemes out of order and one repeated. -/
def sampleAdjective : WordEntry Nat Nat :=
  { LexemeID := 2, Lemma := "БЫСТРЫЙ".toList, Form := "БЫСТРЫХ".toList, POS := 2,
    Grammemes := [5, 6, 5] }

/-- A sample entry whose lemma is the empty string. -/
def sampleNoLemma : WordEntry Nat Nat :=
  { LexemeID := 3, Lemma := [], Form := "ХХХ".toList, POS := 1, Grammemes := [] }

/-- The sample dictionary of the specification. -/
def sampleText : Str :=
  "1\nКОТ\tNOUN,anim,masc,sing,nomn\nКОТА\tNOUN,anim,masc,sing,gent\n2\nБЫСТРЫЙ\tADJF\n".toList

/-- The sample dictionary as blocks. -/
def sampleBlocks : List (Str × List Str) :=
  [("1".toList, ["КОТ\tNOUN,anim,masc,sing,nomn".toList, "КОТА\tNOUN,anim,masc,sing,gent".toList]),
   ("2".toList, ["БЫСТРЫЙ\tADJF".toList])]

/-- A context whose signal is set between the reading of line `k - 1` and the reading of
line `k`: `ctx.Err()` is nil for the lines before `k` and the cancellation from line `k`
on. -/
def cancelledFrom (k : Nat) : Nat → Option CtxError :=
  fun i => if i < k then none else some .canceled

/-- Line normalisation: every blank line is deleted and every remaining line is stripped
of its leading and trailing white space. -/
def normalise (lines : List Str) : List Str :=
  (lines.filter fun l => !isBlank l).map TrimSpace

/-- The malformed-line errors of `parseLine`: the three that are raised before a tag
token is looked up. -/
def LineError.isMalformed : LineError → Bool
  | .malformed _ => true
  | .emptyFormOrTags _ => true
  | .missingTags _ => true
  | .unknownPartOfSpeech _ => false
  | .unknownGrammeme _ => false

/-- The text after the first tab of a line (empty when the line has no tab). -/
def afterFirstTab (line : Str) : Str :=
  (line.dropWhile fun c => c != '\t').tail

/-- The value of the most recent id line among `lines`, an id line being a line whose
trimmed text `strconv.Atoi` accepts; 0 when there is no id line. -/
def lastIdValue (lines : List Str) : Int :=
  ((lines.reverse.filterMap fun l => Atoi (TrimSpace l)).head?).getD 0

/-- The lines up to and including the most recent id line (none when there is no id
line). -/
def uptoLastId (lines : List Str) : List Str :=
  lines.rdropWhile fun l => (Atoi (TrimSpace l)).isNone

/-- The lines after the most recent id line (all of them when there is no id line). -/
def sinceLastId (lines : List Str) : List Str :=
  lines.rtakeWhile fun l => (Atoi (TrimSpace l)).isNone

/-- The lines of the sample dictionary. -/
def sampleLines : List Str :=
  ["1".toList, "КОТ\tNOUN,anim,masc,sing,nomn".toList, "КОТА\tNOUN,anim,masc,sing,gent".toList,
   "2".toList, "БЫСТРЫЙ\tADJF".toList]

/-- The second entry of the sample dictionary. -/
def sampleSecond : WordEntry Nat Nat :=
  { LexemeID := 1, Lemma := "КОТ".toList, Form := "КОТА".toList, POS := 1,
    Grammemes := [1, 2, 3, 5] }

/-! ## cmd/opencorpora-cli/main.go -/

/-- The function `filterLemma`. -/
def filterLemma {P G : Type} (sameFold : Char → Char → Bool)
    (entries : List (WordEntry P G)) (lemmaText : Str) : List (WordEntry P G) :=
  appendLoop (fun e => EqualFold sameFold e.Lemma lemmaText) entries []

/-- The function `filterPOS`. -/
def filterPOS {P G : Type} [DecidableEq P]
    (entries : List (WordEntry P G)) (pos : P) : List (WordEntry P G) :=
  appendLoop (fun e => decide (e.POS = pos)) entries []

/-- The loop of `emitEntries`, with `count` entries printed so far: the entries it
prints. -/
def emitLoop {E : Type} (limit : Int) : List E → Int → List E
  | [], _ => []
  | e :: rest, count =>
    if 0 < limit ∧ limit ≤ count + 1 then [e]
    else e :: emitLoop limit rest (count + 1)

/-- The function `emitEntries`: the entries it prints, in order. -/
def emitEntries {E : Type} (entries : List E) (limit : Int) : List E :=
  emitLoop limit entries 0

/-- The function `runInMemory`: the entries it prints, in order; none when the
dictionary does not parse (`log.Fatalf`). -/
def runInMemory {P G : Type} [DecidableEq P] [DecidableEq G] (V : Vocabulary P G)
    (sameFold : Char → Char → Bool) (ctx : Nat → Option CtxError) (lines : List Str)
    (scanErr : Option ScanError) (lemmaText : Str) (pos : P) (hasPOS : Bool)
    (grams : List G) (limit : Int) : List (WordEntry P G) :=
  match Parse V ctx lines scanErr with
  | (_, some _) => []
  | (entries, none) =>
    let filtered1 :=
      if lemmaText ≠ [] ∧ hasPOS = true then SearchByLemmaAndPOS sameFold entries lemmaText pos
      else entries
    let filtered2 :=
      if grams.length > 0 then FilterByGrammemes filtered1 grams else filtered1
    let filtered3 :=
      if lemmaText ≠ [] ∧ hasPOS = false then filterLemma sameFold filtered2 lemmaText
      else filtered2
    let filtered4 :=
      if hasPOS = true ∧ lemmaText = [] then filterPOS filtered3 pos else filtered3
    emitEntries filtered4 limit

/-- The receiving loop of `runStream` on a channel that offers the values `entries`, with
`count` entries printed so far: the entries it prints and the number of values it
receives before it leaves the loop (by `break`, or because the channel is closed). -/
def consumeLoop {P G : Type} [DecidableEq P] (sameFold : Char → Char → Bool)
    (lemmaText : Str) (pos : P) (hasPOS : Bool) (limit : Int) :
    List (WordEntry P G) → Int → List (WordEntry P G) × Nat
  | [], _ => ([], 0)
  | e :: rest, count =>
    if lemmaText ≠ [] ∧ EqualFold sameFold e.Lemma lemmaText = false then
      ((consumeLoop sameFold lemmaText pos hasPOS limit rest count).1,
        (consumeLoop sameFold lemmaText pos hasPOS limit rest count).2 + 1)
    else if hasPOS = true ∧ e.POS ≠ pos then
      ((consumeLoop sameFold lemmaText pos hasPOS limit rest count).1,
        (consumeLoop sameFold lemmaText pos hasPOS limit rest count).2 + 1)
    else if 0 < limit ∧ limit ≤ count + 1 then ([e], 1)
    else
      (e :: (consumeLoop sameFold lemmaText pos hasPOS limit rest (count + 1)).1,
        (consumeLoop sameFold lemmaText pos hasPOS limit rest (count + 1)).2 + 1)

/-- The goroutine of `FilterStreamByGrammemes` in front of a receiver that takes only
`received` values from `out`: the number of values it takes from its input channel. A
send on the unbuffered `out` completes only when it is received, so the goroutine stays
blocked on the first kept value that is not received and takes nothing more. -/
def forwardTaken {E : Type} (keep : E → Bool) : Nat → List E → Nat
  | _, [] => 0
  | received, e :: rest =>
    if keep e then
      match received with
      | 0 => 1
      | r + 1 => forwardTaken keep r rest + 1
    else forwardTaken keep received rest + 1

/-- What a run of `runStream` does: the entries it prints, and whether its final wait
`<-errs` on the completion channel of `StreamFile` returns. -/
structure StreamRun (E : Type) where
  printed : List E
  completes : Bool
  deriving DecidableEq, Repr

/-- The function `runStream`. The goroutine of `StreamFile` hands the entries of `Stream`
over on an unbuffered channel; it reaches the send on `errs` and its deferred closes, so
that the wait `<-errs` returns, exactly when every one of these entries is taken from
it. -/
def runStream {P G : Type} [DecidableEq P] [DecidableEq G] (V : Vocabulary P G)
    (sameFold : Char → Char → Bool) (ctx : Nat → Option CtxError) (lines : List Str)
    (scanErr : Option ScanError) (lemmaText : Str) (pos : P) (hasPOS : Bool)
    (grams : List G) (limit : Int) : StreamRun (WordEntry P G) :=
  let stream := (Stream V ctx lines scanErr).1
  if grams.length > 0 then
    let r := consumeLoop sameFold lemmaText pos hasPOS limit
      (FilterStreamByGrammemes stream grams) 0
    { printed := r.1,
      completes := decide (stream.length
        ≤ forwardTaken (fun e => containsAll e.Grammemes (keySet grams)) r.2 stream) }
  else
    let r := consumeLoop sameFold lemmaText pos hasPOS limit stream 0
    { printed := r.1, completes := decide (stream.length ≤ r.2) }

/-! ## The scanner on a text -/

/-- The token limit `Stream` gives its scanner: `scanner.Buffer(..., 4*1024*1024)`. -/
def maxTokenSize : Nat :=
  4 * 1024 * 1024

/-- The number of bytes of a text in UTF-8. -/
def byteLen (s : Str) : Nat :=
  (s.map Char.utf8Size).sum

/-- Worker of `scanText`: `cur` is the line being read and `size` its number of bytes. -/
def scanFrom (cur : Str) (size : Nat) : Str → List Str × Option ScanError
  | [] =>
    if cur = [] then ([], none)
    else if maxTokenSize ≤ size then ([], some .tooLong)
    else ([dropCR cur], none)
  | c :: cs =>
    if c = '\n' then
      if maxTokenSize ≤ size then ([], some .tooLong)
      else (dropCR cur :: (scanFrom [] 0 cs).1, (scanFrom [] 0 cs).2)
    else scanFrom (cur ++ [c]) (size + c.utf8Size) cs

/-- The scanner of `Stream` (`bufio.ScanLines` with a buffer of at most `maxTokenSize`
bytes) on a reader that returns `text` in full: the lines successive `Scan()` calls hand
out and the final value of `Err()`. A line is handed out when it fits the buffer with
its line feed; at the first line of `maxTokenSize` bytes or more the scan stops with
`bufio.ErrTooLong`. -/
def scanText (text : Str) : List Str × Option ScanError :=
  scanFrom [] 0 text

/-- The function `Parse` on a reader that returns `text` in full. -/
def ParseText {P G : Type} [DecidableEq G] (V : Vocabulary P G)
    (ctx : Nat → Option CtxError) (text : Str) : List (WordEntry P G) × Option StreamError :=
  Parse V ctx (scanText text).1 (scanText text).2

/-- The text whose physical lines are `lines`, each ended by a line feed. -/
def joinLines (lines : List Str) : Str :=
  (lines.map fun l => l ++ ['\n']).flatten

/-- Normalisation of an input text: its blank lines are deleted and its other lines are
stripped of their leading and trailing white space. -/
def normaliseText (text : Str) : Str :=
  joinLines (normalise (scanLines text))

/-- A blank line of five mebibytes. -/
def longBlankLine : Str :=
  List.replicate (5 * 1024 * 1024) ' '

/-- An input with an id line, a blank line of five mebibytes and a form line. -/
def longBlankText : Str :=
  joinLines ["1".toList, longBlankLine, "КОТ\tNOUN".toList]

/-- A sample input with blank lines, padded lines and carriage returns. -/
def paddedText : Str :=
  "  1 \r\n\n \t \nКОТ\tNOUN,anim  \r\n".toList

/-! ## Lemmas on the helpers -/

theorem trimSpace_eq_nil_iff (s : Str) : TrimSpace s = [] ↔ ∀ c ∈ s, isSpace c = true := by
  unfold TrimSpace
  rw [List.rdropWhile_eq_nil_iff]
  constructor
  · intro h
    have hnil : s.dropWhile isSpace = [] := by
      by_contra hne
      have h1 := List.head_dropWhile_not isSpace s hne
      have h2 := h _ (List.head_mem hne)
      simp [h2] at h1
    exact List.dropWhile_eq_nil_iff.mp hnil
  · intro h
    have hnil : s.dropWhile isSpace = [] := List.dropWhile_eq_nil_iff.mpr h
    simp [hnil]

theorem foldl_keySet_mem {G : Type} [DecidableEq G] (gs m : List G) (g : G) :
    g ∈ gs.foldl (fun m g => if g ∈ m then m else m ++ [g]) m ↔ g ∈ m ∨ g ∈ gs := by
  induction gs generalizing m with
  | nil => simp
  | cons a gs ih =>
    rw [List.foldl_cons, ih]
    by_cases ha : a ∈ m
    · simp only [ha, if_true, List.mem_cons]
      constructor
      · rintro (h | h)
        · exact Or.inl h
        · exact Or.inr (Or.inr h)
      · rintro (h | h | h)
        · exact Or.inl h
        · exact Or.inl (h ▸ ha)
        · exact Or.inr h
    · simp only [ha, if_false, List.mem_append, List.mem_singleton, List.mem_cons]
      tauto

theorem mem_keySet {G : Type} [DecidableEq G] (gs : List G) (g : G) :
    g ∈ keySet gs ↔ g ∈ gs := by
  unfold keySet
  rw [foldl_keySet_mem]
  simp

theorem keySet_length_eq_zero {G : Type} [DecidableEq G] (gs : List G) :
    (keySet gs).length = 0 ↔ gs = [] := by
  rw [List.length_eq_zero]
  constructor
  · intro h
    cases gs with
    | nil => rfl
    | cons a t =>
      have : a ∈ keySet (a :: t) := (mem_keySet _ _).mpr (List.mem_cons_self _ _)
      rw [h] at this
      cases this
  · intro h
    subst h
    rfl

theorem allPresent_iff {G : Type} [DecidableEq G] (haveSet wanted : List G) :
    allPresent haveSet wanted = true ↔ ∀ g ∈ wanted, g ∈ haveSet := by
  induction wanted with
  | nil => simp [allPresent]
  | cons a t ih =>
    by_cases ha : a ∈ haveSet
    · simp [allPresent, ha, ih]
    · simp [allPresent, ha]

theorem containsAll_keySet_iff {G : Type} [DecidableEq G] (haveGs grams : List G) :
    containsAll haveGs (keySet grams) = true ↔ ∀ g ∈ grams, g ∈ haveGs := by
  unfold containsAll
  by_cases h : (keySet grams).length = 0
  · have hnil := (keySet_length_eq_zero grams).mp h
    subst hnil
    simp [keySet]
  · rw [if_neg h, allPresent_iff]
    simp only [mem_keySet]

theorem appendLoop_eq_filter {E : Type} (keep : E → Bool) (entries out : List E) :
    appendLoop keep entries out = out ++ entries.filter keep := by
  induction entries generalizing out with
  | nil => simp [appendLoop]
  | cons e rest ih =>
    by_cases hk : keep e = true
    · simp [appendLoop, hk, ih]
    · simp [appendLoop, hk, ih]

theorem forwardLoop_eq_filter {E : Type} (keep : E → Bool) (entries : List E) :
    forwardLoop keep entries = entries.filter keep := by
  induction entries with
  | nil => simp [forwardLoop]
  | cons e rest ih =>
    by_cases hk : keep e = true
    · simp [forwardLoop, hk, ih]
    · simp [forwardLoop, hk, ih]

theorem FilterByGrammemes_eq_filter {P G : Type} [DecidableEq G]
    (entries : List (WordEntry P G)) (grams : List G) :
    FilterByGrammemes entries grams
      = entries.filter (fun e => decide (∀ g ∈ grams, g ∈ e.Grammemes)) := by
  unfold FilterByGrammemes
  by_cases h : grams.length = 0
  · have hnil := List.length_eq_zero.mp h
    subst hnil
    simp
  · rw [if_neg h]
    simp only [appendLoop_eq_filter, List.nil_append]
    apply List.filter_congr
    intro e _
    rw [Bool.eq_iff_iff, containsAll_keySet_iff]
    simp

theorem FilterStreamByGrammemes_eq_filter {P G : Type} [DecidableEq G]
    (entries : List (WordEntry P G)) (grams : List G) :
    FilterStreamByGrammemes entries grams
      = entries.filter (fun e => decide (∀ g ∈ grams, g ∈ e.Grammemes)) := by
  unfold FilterStreamByGrammemes
  simp only [forwardLoop_eq_filter]
  apply List.filter_congr
  intro e _
  rw [Bool.eq_iff_iff, containsAll_keySet_iff]
  simp

theorem mem_dropRepeats {G : Type} [DecidableEq G] (l : List G) (x : G) :
    x ∈ dropRepeats l ↔ x ∈ l := by
  induction l with
  | nil => simp [dropRepeats]
  | cons g gs ih =>
    simp only [dropRepeats, List.mem_cons, List.mem_filter, ih, decide_eq_true_eq]
    by_cases h : x = g
    · simp [h]
    · simp [h]

theorem nodup_dropRepeats {G : Type} [DecidableEq G] (l : List G) :
    (dropRepeats l).Nodup := by
  induction l with
  | nil => simp [dropRepeats]
  | cons g gs ih =>
    simp only [dropRepeats, List.nodup_cons, List.mem_filter, decide_eq_true_eq]
    exact ⟨fun h => h.2 rfl, ih.filter _⟩

theorem pairwise_indexOf_dropRepeats {G : Type} [DecidableEq G] (l : List G) :
    (dropRepeats l).Pairwise (fun a b => l.indexOf a < l.indexOf b) := by
  induction l with
  | nil => simp [dropRepeats]
  | cons g gs ih =>
    simp only [dropRepeats, List.pairwise_cons, List.mem_filter, decide_eq_true_eq]
    constructor
    · intro b hb
      rw [List.indexOf_cons_self, List.indexOf_cons_ne _ (Ne.symm hb.2)]
      exact Nat.succ_pos _
    · have hsub : ((dropRepeats gs).filter (fun x => decide (x ≠ g))).Pairwise
          (fun a b => gs.indexOf a < gs.indexOf b) := ih.sublist (List.filter_sublist _)
      refine List.Pairwise.imp_of_mem ?_ hsub
      intro a b ha hb hab
      have ha2 : a ≠ g := by simpa using (List.mem_filter.mp ha).2
      have hb2 : b ≠ g := by simpa using (List.mem_filter.mp hb).2
      rw [List.indexOf_cons_ne _ (Ne.symm ha2), List.indexOf_cons_ne _ (Ne.symm hb2)]
      exact Nat.succ_lt_succ hab

theorem grammemeLoop_ok {P G : Type} [DecidableEq G] (V : Vocabulary P G)
    (toks : List Str) (acc seen r : List G) (hseen : ∀ g, g ∈ seen ↔ g ∈ acc)
    (h : grammemeLoop V toks acc seen = .ok r) :
    ∃ codes : List G, toks.map V.ParseGrammeme = codes.map some ∧
      r = acc ++ (dropRepeats codes).filter (fun x => decide (x ∉ acc)) := by
  induction toks generalizing acc seen with
  | nil =>
    refine ⟨[], rfl, ?_⟩
    simp only [grammemeLoop, Except.ok.injEq] at h
    simp [dropRepeats, h]
  | cons g rest ih =>
    unfold grammemeLoop at h
    cases hg : V.ParseGrammeme g with
    | none => simp [hg] at h
    | some gram =>
      simp only [hg] at h
      by_cases hmem : gram ∈ seen
      · rw [if_pos hmem] at h
        obtain ⟨codes, hc, hr⟩ := ih acc seen hseen h
        refine ⟨gram :: codes, by simp [hg, hc], ?_⟩
        have hacc : gram ∈ acc := (hseen gram).mp hmem
        rw [hr]
        congr 1
        simp only [dropRepeats, List.filter_cons, hacc, not_true_eq_false, decide_False,
          List.filter_filter]
        simp only [Bool.false_eq_true, if_false]
        apply List.filter_congr
        intro x _
        by_cases hx : x ∈ acc
        · simp [hx]
        · have : x ≠ gram := fun e => hx (e ▸ hacc)
          simp [hx, this]
      · rw [if_neg hmem] at h
        have hseen2 : ∀ x, x ∈ gram :: seen ↔ x ∈ acc ++ [gram] := by
          intro x
          simp [hseen x, or_comm]
        obtain ⟨codes, hc, hr⟩ := ih (acc ++ [gram]) (gram :: seen) hseen2 h
        refine ⟨gram :: codes, by simp [hg, hc], ?_⟩
        have hacc : gram ∉ acc := fun e => hmem ((hseen gram).mpr e)
        rw [hr]
        simp only [dropRepeats, List.filter_cons, hacc, not_false_eq_true, decide_True,
          List.filter_filter, if_true, List.append_assoc, List.singleton_append]
        congr 2
        apply List.filter_congr
        intro x _
        by_cases hx : x ∈ acc
        · simp [hx]
        · simp [hx]

/-! ## The grammeme filter and the lemma search -/

/-- C3: for a non-empty list of wanted grammemes, `FilterByGrammemes` returns exactly the
entries, in input order and unaltered, whose grammeme set is a superset of the wanted
set; the result is a subsequence of the input, an entry is selected exactly when every
wanted grammeme occurs among its grammemes, and the result depends on the wanted list
only through its set of codes. -/
theorem FilterByGrammemes_superset {P G : Type} [DecidableEq G]
    (entries : List (WordEntry P G)) (grams : List G) (hne : grams ≠ []) :
    FilterByGrammemes entries grams
        = entries.filter (fun e => decide (grams.toFinset ⊆ e.Grammemes.toFinset))
      ∧ (FilterByGrammemes entries grams).Sublist entries
      ∧ (∀ e, e ∈ FilterByGrammemes entries grams ↔ e ∈ entries ∧ ∀ g ∈ grams, g ∈ e.Grammemes)
      ∧ (∀ grams2 : List G, grams2.toFinset = grams.toFinset →
          FilterByGrammemes entries grams2 = FilterByGrammemes entries grams) := by
  have hset : ∀ (gs : List G) (e : WordEntry P G),
      (gs.toFinset ⊆ e.Grammemes.toFinset) ↔ ∀ g ∈ gs, g ∈ e.Grammemes := by
    intro gs e
    simp [Finset.subset_iff]
  have hfin : ∀ gs : List G, FilterByGrammemes entries gs
      = entries.filter (fun e => decide (gs.toFinset ⊆ e.Grammemes.toFinset)) := by
    intro gs
    rw [FilterByGrammemes_eq_filter]
    apply List.filter_congr
    intro e _
    rw [Bool.eq_iff_iff]
    simp [hset]
  have _ := hne
  refine ⟨hfin grams, ?_, ?_, ?_⟩
  · rw [hfin]
    exact List.filter_sublist _
  · intro e
    rw [FilterByGrammemes_eq_filter]
    simp
  · intro grams2 h2
    rw [hfin, hfin, h2]

/-- Witness of C3 on two sample entries and the wanted list plural, genitive. -/
theorem FilterByGrammemes_superset_witness :
    ([6, 5] : List Nat) ≠ [] ∧
      FilterByGrammemes [sampleNoun, sampleAdjective] [6, 5]
        = [sampleNoun, sampleAdjective].filter
            (fun e => decide (([6, 5] : List Nat).toFinset ⊆ e.Grammemes.toFinset)) :=
  ⟨by decide, (FilterByGrammemes_superset [sampleNoun, sampleAdjective] [6, 5] (by decide)).1⟩

/-- C4: with an empty wanted list `FilterByGrammemes` returns its input unchanged. -/
theorem FilterByGrammemes_nil {P G : Type} [DecidableEq G] (entries : List (WordEntry P G)) :
    FilterByGrammemes entries [] = entries := by
  simp [FilterByGrammemes]

/-- C5: the entries `FilterStreamByGrammemes` delivers on a stream that delivers `xs` are
the entries `FilterByGrammemes` returns on `xs`, in the same order, for every wanted list
(the empty one included). -/
theorem FilterStreamByGrammemes_eq_FilterByGrammemes {P G : Type} [DecidableEq G]
    (xs : List (WordEntry P G)) (grams : List G) :
    FilterStreamByGrammemes xs grams = FilterByGrammemes xs grams := by
  rw [FilterStreamByGrammemes_eq_filter, FilterByGrammemes_eq_filter]

/-- C6: for a lemma that is not blank, `SearchByLemmaAndPOS` returns exactly the entries,
in input order, whose POS is the given code and whose Lemma is equal under case folding to
the trimmed lemma; every returned entry is an input entry with that POS and such a Lemma. -/
theorem SearchByLemmaAndPOS_exact {P G : Type} [DecidableEq P]
    (sameFold : Char → Char → Bool) (entries : List (WordEntry P G)) (lemmaText : Str)
    (pos : P) (hne : ∃ c ∈ lemmaText, isSpace c = false) :
    SearchByLemmaAndPOS sameFold entries lemmaText pos
        = entries.filter
            (fun e => decide (e.POS = pos) && EqualFold sameFold e.Lemma (TrimSpace lemmaText))
      ∧ (SearchByLemmaAndPOS sameFold entries lemmaText pos).Sublist entries
      ∧ ∀ e, e ∈ SearchByLemmaAndPOS sameFold entries lemmaText pos ↔
          e ∈ entries ∧ e.POS = pos ∧ EqualFold sameFold e.Lemma (TrimSpace lemmaText) = true := by
  have htrim : TrimSpace lemmaText ≠ [] := by
    intro h
    obtain ⟨c, hc, hs⟩ := hne
    have := (trimSpace_eq_nil_iff lemmaText).mp h c hc
    simp [hs] at this
  have heq : SearchByLemmaAndPOS sameFold entries lemmaText pos
      = entries.filter
          (fun e => decide (e.POS = pos) && EqualFold sameFold e.Lemma (TrimSpace lemmaText)) := by
    unfold SearchByLemmaAndPOS
    simp only [htrim, if_false, appendLoop_eq_filter, List.nil_append]
  refine ⟨heq, ?_, ?_⟩
  · rw [heq]
    exact List.filter_sublist _
  · intro e
    rw [heq]
    simp

/-- Witness of C6: the lower-case query `кот`, padded with blanks, selects the entries
with Lemma `КОТ` and the noun code, and nothing else. -/
theorem SearchByLemmaAndPOS_exact_witness :
    (∃ c ∈ " кот ".toList, isSpace c = false) ∧
      SearchByLemmaAndPOS sampleFold [sampleNoun, sampleAdjective, sampleNoun] " кот ".toList 1
        = [sampleNoun, sampleNoun] :=
  ⟨⟨'к', by decide, by decide⟩,
    (SearchByLemmaAndPOS_exact sampleFold [sampleNoun, sampleAdjective, sampleNoun]
      " кот ".toList 1 ⟨'к', by decide, by decide⟩).1.trans (by decide)⟩

/-- C7: for a lemma that is empty or all white space, `SearchByLemmaAndPOS` returns the
empty result, whatever the entries (entries with an empty Lemma included). -/
theorem SearchByLemmaAndPOS_blank {P G : Type} [DecidableEq P]
    (sameFold : Char → Char → Bool) (entries : List (WordEntry P G)) (lemmaText : Str)
    (pos : P) (hblank : ∀ c ∈ lemmaText, isSpace c = true) :
    SearchByLemmaAndPOS sameFold entries lemmaText pos = [] := by
  unfold SearchByLemmaAndPOS
  simp [(trimSpace_eq_nil_iff lemmaText).mpr hblank]

/-- Witness of C7: a query of blanks and a tab finds nothing, not even the entry whose
Lemma is empty. -/
theorem SearchByLemmaAndPOS_blank_witness :
    (∀ c ∈ " \t ".toList, isSpace c = true) ∧
      SearchByLemmaAndPOS sampleFold [sampleNoLemma, sampleNoun] " \t ".toList 1 = [] :=
  ⟨by decide, SearchByLemmaAndPOS_blank sampleFold [sampleNoLemma, sampleNoun] " \t ".toList 1
    (by decide)⟩

/-! ## The form-line decoder -/

theorem map_eq_map_some {A B : Type} (f : A → Option B) (l : List A) (codes : List B)
    (h : l.map f = codes.map some) :
    l.filterMap f = codes ∧ ∀ t ∈ l, (f t).isSome = true := by
  induction l generalizing codes with
  | nil =>
    cases codes with
    | nil => simp
    | cons c cs => simp at h
  | cons a t ih =>
    cases codes with
    | nil => simp at h
    | cons c cs =>
      simp only [List.map_cons, List.cons.injEq] at h
      obtain ⟨h1, h2⟩ := ih cs h.2
      refine ⟨by simp [List.filterMap_cons, h.1, h1], ?_⟩
      intro x hx
      rcases List.mem_cons.mp hx with hxa | hxt
      · simp [hxa, h.1]
      · exact h2 x hxt

theorem parseLine_ok_inv {P G : Type} [DecidableEq G] (V : Vocabulary P G)
    (line : Str) (entry : WordEntry P G) (h : parseLine V line = .ok entry) :
    ∃ part0 part1 posToken others pos grammemes,
      SplitN2 '\t' line = [part0, part1] ∧ TrimSpace part0 ≠ [] ∧ TrimSpace part1 ≠ [] ∧
      splitTokens (TrimSpace part1) = posToken :: others ∧
      V.ParsePartOfSpeech posToken = some pos ∧
      grammemeLoop V others [] [] = .ok grammemes ∧
      entry = { LexemeID := 0, Lemma := [], Form := TrimSpace part0, POS := pos,
                Grammemes := grammemes } := by
  unfold parseLine at h
  split at h
  · rename_i part0 part1 hsplit
    dsimp only at h
    split at h
    · cases h
    · rename_i hne
      split at h
      · cases h
      · rename_i posToken others htok
        split at h
        · cases h
        · split at h
          · cases h
          · rename_i pos hpos _ grammemes hloop
            simp only [Except.ok.injEq] at h
            refine ⟨part0, part1, posToken, others, pos, grammemes, hsplit, ?_, ?_, htok, hpos,
              hloop, h.symm⟩
            · exact fun e => hne (Or.inl e)
            · exact fun e => hne (Or.inr e)
  · cases h

/-- C2: when `parseLine` succeeds on a line, every tag token after the first decodes, and
the Grammemes of the entry are the decoded codes with every later repetition removed: no
code occurs twice, the codes are exactly the decoded ones, and they stand in the order
of their first occurrence in the line. -/
theorem parseLine_grammemes {P G : Type} [DecidableEq G] (V : Vocabulary P G)
    (line : Str) (entry : WordEntry P G) (h : parseLine V line = .ok entry) :
    (∀ t ∈ (tagTokens line).tail, (V.ParseGrammeme t).isSome = true)
      ∧ entry.Grammemes = dropRepeats (decodedCodes V line)
      ∧ entry.Grammemes.Nodup
      ∧ (∀ g, g ∈ entry.Grammemes ↔ g ∈ decodedCodes V line)
      ∧ entry.Grammemes.Pairwise
          (fun a b => (decodedCodes V line).indexOf a < (decodedCodes V line).indexOf b) := by
  have key : (∀ t ∈ (tagTokens line).tail, (V.ParseGrammeme t).isSome = true)
      ∧ entry.Grammemes = dropRepeats (decodedCodes V line) := by
    obtain ⟨part0, part1, posToken, others, pos, grammemes, hsplit, _, _, htok, _, hloop, he⟩ :=
      parseLine_ok_inv V line entry h
    have htag : tagTokens line = posToken :: others := by
      simp [tagTokens, hsplit, htok]
    obtain ⟨codes, hc, hr⟩ := grammemeLoop_ok V others [] [] grammemes (by simp) hloop
    obtain ⟨h1, h2⟩ := map_eq_map_some _ _ _ hc
    unfold decodedCodes
    rw [htag, he]
    refine ⟨h2, ?_⟩
    simp [hr, h1]
  obtain ⟨k1, k2⟩ := key
  refine ⟨k1, k2, ?_, ?_, ?_⟩
  · rw [k2]
    exact nodup_dropRepeats _
  · intro g
    rw [k2]
    exact mem_dropRepeats _ g
  · rw [k2]
    exact pairwise_indexOf_dropRepeats _

/-- Witness of C2: a line that repeats `anim` and `masc`. -/
theorem parseLine_grammemes_witness :
    parseLine sampleVocabulary "КОТ\tNOUN,anim,masc anim,sing,masc".toList
        = .ok { LexemeID := 0, Lemma := [], Form := "КОТ".toList, POS := 1,
                Grammemes := [1, 2, 3] }
      ∧ ([1, 2, 3] : List Nat)
        = dropRepeats (decodedCodes sampleVocabulary "КОТ\tNOUN,anim,masc anim,sing,masc".toList) :=
  ⟨by rfl,
    (parseLine_grammemes sampleVocabulary "КОТ\tNOUN,anim,masc anim,sing,masc".toList
      { LexemeID := 0, Lemma := [], Form := "КОТ".toList, POS := 1, Grammemes := [1, 2, 3] }
      (by rfl)).2.1⟩

/-! ## Integer literals -/

theorem atoi_digits (digits : Str) (hne : digits ≠ [])
    (hd : ∀ c ∈ digits, isDigit c = true) :
    Atoi digits = if decimalValue digits < 2 ^ 63 then some (decimalValue digits : Int)
      else none := by
  cases digits with
  | nil => exact absurd rfl hne
  | cons c t =>
    have hc : isDigit c = true := hd c (List.mem_cons_self _ _)
    have h1 : c ≠ '-' := by
      intro e
      rw [e] at hc
      exact absurd hc (by decide)
    have h2 : c ≠ '+' := by
      intro e
      rw [e] at hc
      exact absurd hc (by decide)
    have hall : (c :: t).all isDigit = true := List.all_eq_true.mpr hd
    simp [Atoi, h1, h2, hall]

theorem atoi_plus (digits : Str) (hne : digits ≠ [])
    (hd : ∀ c ∈ digits, isDigit c = true) :
    Atoi ('+' :: digits) = if decimalValue digits < 2 ^ 63
      then some (decimalValue digits : Int) else none := by
  have hall : digits.all isDigit = true := List.all_eq_true.mpr hd
  simp [Atoi, hne, hall]

theorem atoi_minus (digits : Str) (hne : digits ≠ [])
    (hd : ∀ c ∈ digits, isDigit c = true) :
    Atoi ('-' :: digits) = if decimalValue digits ≤ 2 ^ 63
      then some (-(decimalValue digits : Int)) else none := by
  have hall : digits.all isDigit = true := List.all_eq_true.mpr hd
  simp [Atoi, hne, hall]

theorem atoi_some_isIntLiteral (s : Str) (v : Int) (h : Atoi s = some v) : IsIntLiteral s := by
  cases s with
  | nil => simp [Atoi] at h
  | cons c t =>
    by_cases h1 : c = '-'
    · subst h1
      by_cases ht : t = []
      · simp [Atoi, ht] at h
      · by_cases hall : t.all isDigit = true
        · have hd := List.all_eq_true.mp hall
          rw [atoi_minus t ht hd] at h
          split at h
          · rename_i hle
            exact ⟨t, ht, hd, Or.inr (Or.inr ⟨rfl, hle⟩)⟩
          · cases h
        · simp [Atoi, ht, hall] at h
    · by_cases h2 : c = '+'
      · subst h2
        by_cases ht : t = []
        · simp [Atoi, ht] at h
        · by_cases hall : t.all isDigit = true
          · have hd := List.all_eq_true.mp hall
            rw [atoi_plus t ht hd] at h
            split at h
            · rename_i hlt
              exact ⟨t, ht, hd, Or.inr (Or.inl ⟨rfl, hlt⟩)⟩
            · cases h
          · simp [Atoi, ht, hall] at h
      · by_cases hall : (c :: t).all isDigit = true
        · have hd := List.all_eq_true.mp hall
          rw [atoi_digits (c :: t) (by simp) hd] at h
          split at h
          · rename_i hlt
            exact ⟨c :: t, by simp, hd, Or.inl ⟨rfl, hlt⟩⟩
          · cases h
        · have hall2 : ¬ (isDigit c = true ∧ t.all isDigit = true) := by
            simpa using hall
          simp [Atoi, h1, h2] at h
          exact absurd ⟨h.1.1, by simpa using h.1.2⟩ hall2

theorem isIntLiteral_atoi_isSome (s : Str) (h : IsIntLiteral s) : (Atoi s).isSome = true := by
  obtain ⟨digits, hne, hd, h | h | h⟩ := h
  · rw [h.1, atoi_digits digits hne hd, if_pos h.2]
    rfl
  · rw [h.1, atoi_plus digits hne hd, if_pos h.2]
    rfl
  · rw [h.1, atoi_minus digits hne hd, if_pos h.2]
    rfl

theorem atoi_eq_none_iff (s : Str) : Atoi s = none ↔ ¬ IsIntLiteral s := by
  constructor
  · intro h hl
    have := isIntLiteral_atoi_isSome s hl
    rw [h] at this
    cases this
  · intro h
    cases hs : Atoi s with
    | none => rfl
    | some v => exact absurd (atoi_some_isIntLiteral s v hs) h
/-! ## The body of the scanning loop -/

theorem loopBody_blank {P G : Type} [DecidableEq G] (V : Vocabulary P G)
    (lexemeID : Int) (curLemma text : Str) (h : TrimSpace text = []) :
    loopBody V none lexemeID curLemma text = .next lexemeID curLemma none := by
  simp [loopBody, h]

theorem loopBody_id {P G : Type} [DecidableEq G] (V : Vocabulary P G)
    (lexemeID : Int) (curLemma text : Str) (v : Int) (hne : TrimSpace text ≠ [])
    (h : Atoi (TrimSpace text) = some v) :
    loopBody V none lexemeID curLemma text = .next v [] none := by
  simp [loopBody, h, hne]

theorem loopBody_unset {P G : Type} [DecidableEq G] (V : Vocabulary P G)
    (curLemma text : Str) (hne : TrimSpace text ≠ []) (h : Atoi (TrimSpace text) = none) :
    loopBody V none 0 curLemma text = .stop (.formBeforeID (TrimSpace text)) := by
  simp [loopBody, h, hne]

theorem loopBody_error {P G : Type} [DecidableEq G] (V : Vocabulary P G)
    (lexemeID : Int) (curLemma text : Str) (err : LineError) (hne : TrimSpace text ≠ [])
    (h : Atoi (TrimSpace text) = none) (hid : lexemeID ≠ 0)
    (hp : parseLine V (TrimSpace text) = .error err) :
    loopBody V none lexemeID curLemma text = .stop (.lexeme lexemeID err) := by
  simp [loopBody, h, hne, hid, hp]

theorem loopBody_entry {P G : Type} [DecidableEq G] (V : Vocabulary P G)
    (lexemeID : Int) (curLemma text : Str) (entry : WordEntry P G)
    (hne : TrimSpace text ≠ []) (h : Atoi (TrimSpace text) = none) (hid : lexemeID ≠ 0)
    (hp : parseLine V (TrimSpace text) = .ok entry) :
    loopBody V none lexemeID curLemma text
      = .next lexemeID (if curLemma = [] then entry.Form else curLemma)
          (some { entry with Lemma := if curLemma = [] then entry.Form else curLemma,
                             LexemeID := lexemeID }) := by
  simp [loopBody, h, hne, hid, hp]

/-- C8 (amended): a non-blank line is handled as a lexeme-id line exactly when its
trimmed text is an integer literal of `strconv.Atoi` (digits with an optional sign, value
in the 64-bit range); the loop then goes on with that value as current id and an empty
current lemma, sending nothing. Every other non-blank line is handled as a form line: it
stops the loop with the sequencing error when the current id is 0, with the error of
`parseLine` when that fails, and otherwise sends the stamped entry. -/
theorem loopBody_idLine_iff {P G : Type} [DecidableEq G] (V : Vocabulary P G)
    (lexemeID : Int) (curLemma text : Str) (hne : TrimSpace text ≠ []) :
    (IsIntLiteral (TrimSpace text) ↔
        ∃ id lem, loopBody V none lexemeID curLemma text = .next id lem none)
      ∧ (∀ digits : Str, digits ≠ [] → (∀ c ∈ digits, isDigit c = true) →
          (TrimSpace text = digits → decimalValue digits < 2 ^ 63 →
            loopBody V none lexemeID curLemma text = .next (decimalValue digits) [] none)
          ∧ (TrimSpace text = '+' :: digits → decimalValue digits < 2 ^ 63 →
            loopBody V none lexemeID curLemma text = .next (decimalValue digits) [] none)
          ∧ (TrimSpace text = '-' :: digits → decimalValue digits ≤ 2 ^ 63 →
            loopBody V none lexemeID curLemma text = .next (-(decimalValue digits : Int)) [] none))
      ∧ (¬ IsIntLiteral (TrimSpace text) →
          (lexemeID = 0 ∧
              loopBody V none lexemeID curLemma text = .stop (.formBeforeID (TrimSpace text)))
            ∨ (lexemeID ≠ 0 ∧ ∃ err, parseLine V (TrimSpace text) = .error err ∧
              loopBody V none lexemeID curLemma text = .stop (.lexeme lexemeID err))
            ∨ (lexemeID ≠ 0 ∧ ∃ entry lem, parseLine V (TrimSpace text) = .ok entry ∧
              loopBody V none lexemeID curLemma text
                = .next lexemeID lem (some { entry with Lemma := lem, LexemeID := lexemeID }))) := by
  have hform : ¬ IsIntLiteral (TrimSpace text) →
      (lexemeID = 0 ∧
          loopBody V none lexemeID curLemma text = .stop (.formBeforeID (TrimSpace text)))
        ∨ (lexemeID ≠ 0 ∧ ∃ err, parseLine V (TrimSpace text) = .error err ∧
          loopBody V none lexemeID curLemma text = .stop (.lexeme lexemeID err))
        ∨ (lexemeID ≠ 0 ∧ ∃ entry lem, parseLine V (TrimSpace text) = .ok entry ∧
          loopBody V none lexemeID curLemma text
            = .next lexemeID lem (some { entry with Lemma := lem, LexemeID := lexemeID })) := by
    intro hlit
    have hnone := (atoi_eq_none_iff _).mpr hlit
    by_cases hid : lexemeID = 0
    · subst hid
      exact Or.inl ⟨rfl, loopBody_unset V curLemma text hne hnone⟩
    · cases hp : parseLine V (TrimSpace text) with
      | error err =>
        exact Or.inr (Or.inl ⟨hid, err, rfl, loopBody_error V lexemeID curLemma text err hne hnone hid hp⟩)
      | ok entry =>
        exact Or.inr (Or.inr ⟨hid, entry, _, rfl,
          loopBody_entry V lexemeID curLemma text entry hne hnone hid hp⟩)
  refine ⟨⟨?_, ?_⟩, ?_, hform⟩
  · intro hlit
    have hsome := isIntLiteral_atoi_isSome _ hlit
    obtain ⟨v, hv⟩ := Option.isSome_iff_exists.mp hsome
    exact ⟨v, [], loopBody_id V lexemeID curLemma text v hne hv⟩
  · rintro ⟨id, lem, hstep⟩
    by_contra hlit
    rcases hform hlit with ⟨_, h⟩ | ⟨_, _, _, h⟩ | ⟨_, _, _, _, h⟩
    · rw [h] at hstep
      cases hstep
    · rw [h] at hstep
      cases hstep
    · rw [h] at hstep
      cases hstep
  · intro digits hd1 hd2
    refine ⟨?_, ?_, ?_⟩
    · intro ht hlt
      apply loopBody_id V lexemeID curLemma text _ hne
      rw [ht, atoi_digits digits hd1 hd2, if_pos hlt]
    · intro ht hlt
      apply loopBody_id V lexemeID curLemma text _ hne
      rw [ht, atoi_plus digits hd1 hd2, if_pos hlt]
    · intro ht hle
      apply loopBody_id V lexemeID curLemma text _ hne
      rw [ht, atoi_minus digits hd1 hd2, if_pos hle]

/-- Witness of C8 (amended): the padded line `-12` is an integer literal and is handled
as an id line. -/
theorem loopBody_idLine_iff_witness :
    TrimSpace " -12 ".toList ≠ [] ∧
      (IsIntLiteral (TrimSpace " -12 ".toList) ↔
        ∃ id lem, loopBody sampleVocabulary none 7 "КОТ".toList " -12 ".toList
          = .next id lem none) :=
  ⟨by decide, (loopBody_idLine_iff sampleVocabulary 7 "КОТ".toList " -12 ".toList (by decide)).1⟩

/-- Counterexample to C8 as stated: the line `+5` does not consist solely of decimal
digits, yet it is handled as an id line (value 5, lemma cleared); the line of twenty
nines consists solely of decimal digits, yet it is handled as a form line (here it is
rejected by `parseLine`, the current id being 7). -/
theorem loopBody_digits_only_counterexample :
    ("+5".toList.all isDigit = false
        ∧ loopBody sampleVocabulary none 7 "КОТ".toList "+5".toList = .next 5 [] none)
      ∧ ("99999999999999999999".toList.all isDigit = true
        ∧ loopBody sampleVocabulary none 7 "КОТ".toList "99999999999999999999".toList
          = .stop (.lexeme 7 (.malformed "99999999999999999999".toList))) :=
  ⟨⟨by decide, by decide⟩, ⟨by decide, by decide⟩⟩

/-! ## Splitting and trimming -/

theorem splitN2_append (sep : Char) (p0 p1 : Str) (h : sep ∉ p0) :
    SplitN2 sep (p0 ++ sep :: p1) = [p0, p1] := by
  induction p0 with
  | nil => simp [SplitN2]
  | cons c t ih =>
    have hc : c ≠ sep := fun e => h (e ▸ List.mem_cons_self _ _)
    have ht : sep ∉ t := fun e => h (List.mem_cons_of_mem _ e)
    simp [SplitN2, hc, ih ht]

theorem splitN2_not_mem (sep : Char) (s : Str) (h : sep ∉ s) : SplitN2 sep s = [s] := by
  induction s with
  | nil => simp [SplitN2]
  | cons c t ih =>
    have hc : c ≠ sep := fun e => h (e ▸ List.mem_cons_self _ _)
    have ht : sep ∉ t := fun e => h (List.mem_cons_of_mem _ e)
    simp [SplitN2, hc, ih ht]

theorem splitN2_cases (sep : Char) (s : Str) :
    (sep ∉ s ∧ SplitN2 sep s = [s])
      ∨ ∃ a b, s = a ++ sep :: b ∧ sep ∉ a ∧ SplitN2 sep s = [a, b] := by
  induction s with
  | nil => exact Or.inl ⟨by simp, by simp [SplitN2]⟩
  | cons c t ih =>
    by_cases hc : c = sep
    · exact Or.inr ⟨[], t, by simp [hc], by simp, by simp [SplitN2, hc]⟩
    · rcases ih with ⟨h1, h2⟩ | ⟨a, b, h1, h2, h3⟩
      · refine Or.inl ⟨?_, by simp [SplitN2, hc, h2]⟩
        intro hm
        rcases List.mem_cons.mp hm with e | e
        · exact hc e.symm
        · exact h1 e
      · refine Or.inr ⟨c :: a, b, by simp [h1], ?_, by simp [SplitN2, hc, h3]⟩
        intro hm
        rcases List.mem_cons.mp hm with e | e
        · exact hc e.symm
        · exact h2 e

theorem splitN2_eq_pair (sep : Char) (s p0 p1 : Str) (h : SplitN2 sep s = [p0, p1]) :
    s = p0 ++ sep :: p1 ∧ sep ∉ p0 := by
  rcases splitN2_cases sep s with ⟨_, h2⟩ | ⟨a, b, h1, h2, h3⟩
  · rw [h2] at h
    simp at h
  · rw [h3] at h
    simp only [List.cons.injEq, and_true] at h
    rw [← h.1, ← h.2]
    exact ⟨h1, h2⟩

theorem trimSpace_head_not_space (s : Str) (c : Char) (t : Str) (h : TrimSpace s = c :: t) :
    isSpace c = false := by
  unfold TrimSpace at h
  have hpre := List.rdropWhile_prefix isSpace (l := s.dropWhile isSpace)
  rw [h] at hpre
  obtain ⟨u, hu⟩ := hpre
  have hne : s.dropWhile isSpace ≠ [] := by
    rw [← hu]
    simp
  have hh := List.head_dropWhile_not isSpace s hne
  have : (s.dropWhile isSpace).head hne = c := by
    simp [← hu]
  rw [this] at hh
  simpa using hh

theorem trimSpace_ne_nil_of_head (c : Char) (t : Str) (h : isSpace c = false) :
    TrimSpace (c :: t) ≠ [] := by
  intro e
  have := (trimSpace_eq_nil_iff _).mp e c (List.mem_cons_self _ _)
  rw [h] at this
  cases this

theorem fieldsFrom_nil_of_blank (s : Str) (h : ∀ c ∈ s, isSpace c = true) :
    fieldsFrom [] s = [] := by
  induction s with
  | nil => simp [fieldsFrom]
  | cons c t ih =>
    have hc := h c (List.mem_cons_self _ _)
    simp [fieldsFrom, hc, ih (fun x hx => h x (List.mem_cons_of_mem _ hx))]

theorem splitTokens_nil : splitTokens [] = [] := by
  simp [splitTokens, Fields, replaceCommas, fieldsFrom]

/-! ## Decoding of a form line -/

theorem grammemeLoop_error {P G : Type} [DecidableEq G] (V : Vocabulary P G)
    (toks : List Str) (g : Str)
    (h : toks.find? (fun g => (V.ParseGrammeme g).isNone) = some g) (acc seen : List G) :
    grammemeLoop V toks acc seen = .error (.unknownGrammeme g) := by
  induction toks generalizing acc seen with
  | nil => simp at h
  | cons a rest ih =>
    cases ha : V.ParseGrammeme a with
    | none =>
      simp only [List.find?_cons, ha, Option.isNone_none, Option.some.injEq] at h
      subst h
      simp [grammemeLoop, ha]
    | some gram =>
      simp only [List.find?_cons, ha, Option.isNone_some] at h
      unfold grammemeLoop
      simp only [ha]
      split
      · exact ih h _ _
      · exact ih h _ _

theorem grammemeLoop_total {P G : Type} [DecidableEq G] (V : Vocabulary P G)
    (toks : List Str) (h : ∀ t ∈ toks, (V.ParseGrammeme t).isSome = true) (acc seen : List G) :
    ∃ r, grammemeLoop V toks acc seen = .ok r := by
  induction toks generalizing acc seen with
  | nil => exact ⟨acc, rfl⟩
  | cons a rest ih =>
    obtain ⟨gram, ha⟩ := Option.isSome_iff_exists.mp (h a (List.mem_cons_self _ _))
    have hrest : ∀ t ∈ rest, (V.ParseGrammeme t).isSome = true :=
      fun t ht => h t (List.mem_cons_of_mem _ ht)
    unfold grammemeLoop
    simp only [ha]
    split
    · exact ih hrest _ _
    · exact ih hrest _ _

theorem tagTokens_cons_inv (line posToken : Str) (others : List Str)
    (h : tagTokens line = posToken :: others) :
    ∃ part0 part1, SplitN2 '\t' line = [part0, part1] ∧
      splitTokens (TrimSpace part1) = posToken :: others := by
  unfold tagTokens at h
  split at h
  · rename_i part0 part1 hsplit
    exact ⟨part0, part1, hsplit, h⟩
  · cases h

theorem trimSpace_part0_ne_nil (text part0 part1 : Str) (hne : TrimSpace text ≠ [])
    (hsplit : SplitN2 '\t' (TrimSpace text) = [part0, part1]) : TrimSpace part0 ≠ [] := by
  obtain ⟨hs, _⟩ := splitN2_eq_pair _ _ _ _ hsplit
  cases hline : TrimSpace text with
  | nil => exact absurd hline hne
  | cons c t =>
    have hc := trimSpace_head_not_space text c t hline
    rw [hline] at hs
    cases part0 with
    | nil =>
      simp only [List.nil_append, List.cons.injEq] at hs
      rw [hs.1] at hc
      exact absurd hc (by decide)
    | cons d u =>
      simp only [List.cons_append, List.cons.injEq] at hs
      rw [hs.1] at hc
      exact trimSpace_ne_nil_of_head d u hc

theorem parseLine_of_tokens {P G : Type} [DecidableEq G] (V : Vocabulary P G)
    (text part0 part1 posToken : Str) (others : List Str) (hne : TrimSpace text ≠ [])
    (hsplit : SplitN2 '\t' (TrimSpace text) = [part0, part1])
    (htok : splitTokens (TrimSpace part1) = posToken :: others) :
    parseLine V (TrimSpace text) =
      match V.ParsePartOfSpeech posToken with
      | none => .error (.unknownPartOfSpeech posToken)
      | some pos =>
        match grammemeLoop V others [] [] with
        | .error e => .error e
        | .ok grammemes =>
          .ok { LexemeID := 0, Lemma := [], Form := TrimSpace part0, POS := pos,
                Grammemes := grammemes } := by
  have h0 := trimSpace_part0_ne_nil text part0 part1 hne hsplit
  have h1 : TrimSpace part1 ≠ [] := by
    intro e
    rw [e, splitTokens_nil] at htok
    cases htok
  unfold parseLine
  simp only [hsplit, h0, h1, or_self, if_false, htok]

theorem parseLine_decodeError {P G : Type} [DecidableEq G] (V : Vocabulary P G)
    (text : Str) (err : LineError) (hne : TrimSpace text ≠ [])
    (h : decodeError V (TrimSpace text) = some err) :
    parseLine V (TrimSpace text) = .error err := by
  unfold decodeError at h
  split at h
  · cases h
  · rename_i posToken others htag
    obtain ⟨part0, part1, hsplit, htok⟩ := tagTokens_cons_inv _ _ _ htag
    rw [parseLine_of_tokens V text part0 part1 posToken others hne hsplit htok]
    split at h
    · rename_i hpos
      simp only [Option.some.injEq] at h
      simp [hpos, h]
    · rename_i pos hpos
      simp only [Option.map_eq_some'] at h
      obtain ⟨g, hg, he⟩ := h
      simp [hpos, grammemeLoop_error V others g hg, he]

/-! ## The scanning loop -/

theorem streamFrom_cons_stop {P G : Type} [DecidableEq G] (V : Vocabulary P G)
    (ctx : Nat → Option CtxError) (scanErr : Option ScanError) (i : Nat) (lexemeID : Int)
    (curLemma text : Str) (rest : List Str) (err : StreamError)
    (h : loopBody V (ctx i) lexemeID curLemma text = .stop err) :
    streamFrom V ctx scanErr i lexemeID curLemma (text :: rest) = ([], some err) := by
  simp [streamFrom, h]

theorem streamFrom_cons_next {P G : Type} [DecidableEq G] (V : Vocabulary P G)
    (ctx : Nat → Option CtxError) (scanErr : Option ScanError) (i : Nat) (lexemeID : Int)
    (curLemma text : Str) (rest : List Str) (id1 : Int) (lemma1 : Str)
    (sent : Option (WordEntry P G))
    (h : loopBody V (ctx i) lexemeID curLemma text = .next id1 lemma1 sent) :
    streamFrom V ctx scanErr i lexemeID curLemma (text :: rest)
      = (sent.toList ++ (streamFrom V ctx scanErr (i + 1) id1 lemma1 rest).1,
          (streamFrom V ctx scanErr (i + 1) id1 lemma1 rest).2) := by
  simp [streamFrom, h]

theorem streamFrom_blanks {P G : Type} [DecidableEq G] (V : Vocabulary P G)
    (ctx : Nat → Option CtxError) (scanErr : Option ScanError) (blanks rest : List Str)
    (hblank : ∀ b ∈ blanks, TrimSpace b = []) (i : Nat) (lexemeID : Int) (curLemma : Str)
    (hctx : ∀ j, j < blanks.length → ctx (i + j) = none) :
    streamFrom V ctx scanErr i lexemeID curLemma (blanks ++ rest)
      = streamFrom V ctx scanErr (i + blanks.length) lexemeID curLemma rest := by
  induction blanks generalizing i with
  | nil => simp
  | cons b bs ih =>
    have hb := hblank b (List.mem_cons_self _ _)
    have h0 : ctx i = none := by simpa using hctx 0 (by simp)
    have hstep : loopBody V (ctx i) lexemeID curLemma b = .next lexemeID curLemma none := by
      rw [h0]
      exact loopBody_blank V lexemeID curLemma b hb
    rw [List.cons_append, streamFrom_cons_next V ctx scanErr i lexemeID curLemma b _ _ _ _ hstep]
    rw [ih (fun x hx => hblank x (List.mem_cons_of_mem _ hx)) (i + 1)
      (fun j hj => by
        have := hctx (j + 1) (by simpa using hj)
        rwa [show i + 1 + j = i + (j + 1) by omega])]
    simp only [Option.toList, List.nil_append, List.length_cons]
    rw [show i + 1 + bs.length = i + (bs.length + 1) by omega]

theorem Parse_of_error {P G : Type} [DecidableEq G] (V : Vocabulary P G)
    (ctx : Nat → Option CtxError) (lines : List Str) (scanErr : Option ScanError)
    (err : StreamError) (h : (Stream V ctx lines scanErr).2 = some err) :
    Parse V ctx lines scanErr = ([], some err) := by
  simp [Parse, h]

theorem Parse_of_success {P G : Type} [DecidableEq G] (V : Vocabulary P G)
    (ctx : Nat → Option CtxError) (lines : List Str) (scanErr : Option ScanError)
    (h : (Stream V ctx lines scanErr).2 = none) :
    Parse V ctx lines scanErr = ((Stream V ctx lines scanErr).1, none) := by
  simp [Parse, h]

/-- C9 (amended): when the first non-blank line is one that `strconv.Atoi` rejects (it
is not an integer literal), and the signal is not cancelled when that line or one of the
blank lines before it is read, `Parse` returns zero entries and the sequencing error on
the trimmed line, whatever follows and whether or not the line is well-formed. -/
theorem Parse_form_before_id {P G : Type} [DecidableEq G] (V : Vocabulary P G)
    (ctx : Nat → Option CtxError) (blanks : List Str) (text : Str) (rest : List Str)
    (scanErr : Option ScanError)
    (hblank : ∀ b ∈ blanks, ∀ c ∈ b, isSpace c = true)
    (hne : ∃ c ∈ text, isSpace c = false)
    (hform : ¬ IsIntLiteral (TrimSpace text))
    (hctx : ∀ i, i ≤ blanks.length → ctx i = none) :
    Parse V ctx (blanks ++ text :: rest) scanErr
      = ([], some (.formBeforeID (TrimSpace text))) := by
  apply Parse_of_error
  have htrim : TrimSpace text ≠ [] := by
    intro h
    obtain ⟨c, hc, hs⟩ := hne
    have := (trimSpace_eq_nil_iff text).mp h c hc
    simp [hs] at this
  unfold Stream
  rw [streamFrom_blanks V ctx scanErr blanks _
    (fun b hb => (trimSpace_eq_nil_iff b).mpr (hblank b hb)) 0 0 []
    (fun j hj => by simpa using hctx j (Nat.le_of_lt hj))]
  have hstep : loopBody V (ctx (0 + blanks.length)) 0 [] text
      = .stop (.formBeforeID (TrimSpace text)) := by
    rw [show ctx (0 + blanks.length) = none by simpa using hctx blanks.length (Nat.le_refl _)]
    exact loopBody_unset V [] text htrim ((atoi_eq_none_iff _).mpr hform)
  rw [streamFrom_cons_stop V ctx scanErr _ _ _ _ _ _ hstep]

/-- Witness of C9 (amended): a blank line, then a well-formed form line with no id line
above it. -/
theorem Parse_form_before_id_witness :
    (∀ b ∈ ["  ".toList], ∀ c ∈ b, isSpace c = true)
      ∧ (∃ c ∈ "КОТ\tNOUN,anim".toList, isSpace c = false)
      ∧ ¬ IsIntLiteral (TrimSpace "КОТ\tNOUN,anim".toList)
      ∧ Parse sampleVocabulary background
          (["  ".toList] ++ "КОТ\tNOUN,anim".toList :: ["1".toList]) none
        = ([], some (.formBeforeID "КОТ\tNOUN,anim".toList)) :=
  have hform : ¬ IsIntLiteral (TrimSpace "КОТ\tNOUN,anim".toList) := by
    intro h
    have := isIntLiteral_atoi_isSome _ h
    revert this
    decide
  ⟨by decide, ⟨'К', by decide, by decide⟩, hform,
    Parse_form_before_id sampleVocabulary background ["  ".toList] "КОТ\tNOUN,anim".toList
      ["1".toList] none (by decide) ⟨'К', by decide, by decide⟩ hform (fun _ _ => rfl)⟩

/-- Counterexample to C9 as stated: the first non-blank line `+5` does not consist
solely of decimal digits, yet `Parse` reports no error; and with a signal that is
already cancelled the error returned for an input that starts with a form line is the
cancellation, not the sequencing error. -/
theorem Parse_form_before_id_counterexample :
    ("+5".toList.all isDigit = false
        ∧ Parse sampleVocabulary background ["+5".toList] none = ([], none))
      ∧ Parse sampleVocabulary (fun _ => some CtxError.canceled) ["КОТ\tNOUN".toList] none
          = ([], some (.ctx .canceled)) :=
  ⟨⟨by decide, by decide⟩, by decide⟩

theorem streamFrom_append {P G : Type} [DecidableEq G] (V : Vocabulary P G)
    (ctx : Nat → Option CtxError) (scanErr : Option ScanError) (pre rest : List Str)
    (i : Nat) (lexemeID : Int) (curLemma : Str) (id1 : Int) (lemma1 : Str)
    (h : stateAfter V ctx i lexemeID curLemma pre = some (id1, lemma1)) :
    streamFrom V ctx scanErr i lexemeID curLemma (pre ++ rest)
      = ((streamFrom V ctx none i lexemeID curLemma pre).1
            ++ (streamFrom V ctx scanErr (i + pre.length) id1 lemma1 rest).1,
          (streamFrom V ctx scanErr (i + pre.length) id1 lemma1 rest).2) := by
  induction pre generalizing i lexemeID curLemma with
  | nil =>
    simp only [stateAfter, Option.some.injEq, Prod.mk.injEq] at h
    simp [streamFrom, h.1, h.2]
  | cons t ts ih =>
    unfold stateAfter at h
    cases hstep : loopBody V (ctx i) lexemeID curLemma t with
    | stop err => simp [hstep] at h
    | next id2 lemma2 sent =>
      simp only [hstep] at h
      rw [List.cons_append, streamFrom_cons_next V ctx scanErr i _ _ _ _ _ _ _ hstep,
        streamFrom_cons_next V ctx none i _ _ _ _ _ _ _ hstep, ih (i + 1) id2 lemma2 h]
      simp only [List.length_cons, List.append_assoc]
      rw [show i + 1 + ts.length = i + (ts.length + 1) by omega]

theorem streamFrom_stops {P G : Type} [DecidableEq G] (V : Vocabulary P G)
    (ctx : Nat → Option CtxError) (scanErr : Option ScanError) (text : Str)
    (hstop : ∀ ctxErr lexemeID curLemma, ∃ err, loopBody V ctxErr lexemeID curLemma text = .stop err)
    (pre rest : List Str) (i : Nat) (lexemeID : Int) (curLemma : Str) :
    (streamFrom V ctx scanErr i lexemeID curLemma (pre ++ text :: rest)).2 ≠ none := by
  induction pre generalizing i lexemeID curLemma with
  | nil =>
    obtain ⟨err, herr⟩ := hstop (ctx i) lexemeID curLemma
    rw [List.nil_append, streamFrom_cons_stop V ctx scanErr i _ _ _ _ _ herr]
    simp
  | cons t ts ih =>
    cases hstep : loopBody V (ctx i) lexemeID curLemma t with
    | stop err =>
      rw [List.cons_append, streamFrom_cons_stop V ctx scanErr i _ _ _ _ _ hstep]
      simp
    | next id2 lemma2 sent =>
      rw [List.cons_append, streamFrom_cons_next V ctx scanErr i _ _ _ _ _ _ _ hstep]
      exact ih (i + 1) id2 lemma2

theorem Parse_fst_of_error {P G : Type} [DecidableEq G] (V : Vocabulary P G)
    (ctx : Nat → Option CtxError) (lines : List Str) (scanErr : Option ScanError)
    (h : (Stream V ctx lines scanErr).2 ≠ none) :
    (Parse V ctx lines scanErr).1 = [] ∧ (Parse V ctx lines scanErr).2 ≠ none := by
  cases hs : (Stream V ctx lines scanErr).2 with
  | none => exact absurd hs h
  | some err => simp [Parse, hs]

/-- C10 (amended): when the input contains a form line with a tag token that is not
recognised, `Parse` returns zero entries and a non-nil error, whatever the signal does.
That error is the decode error of the line (unknown part of speech on the first tag
token, otherwise unknown grammeme on the first unrecognised later token), wrapped with
the current lexeme id, when the loop reaches the line: no line before it stops the loop,
the current id is then non-zero and the signal is not cancelled at that line. -/
theorem Parse_unknown_token {P G : Type} [DecidableEq G] (V : Vocabulary P G)
    (ctx : Nat → Option CtxError) (pre : List Str) (text : Str) (rest : List Str)
    (scanErr : Option ScanError) (err : LineError)
    (hne : ∃ c ∈ text, isSpace c = false)
    (hform : ¬ IsIntLiteral (TrimSpace text))
    (hdec : decodeError V (TrimSpace text) = some err) :
    ((Parse V ctx (pre ++ text :: rest) scanErr).1 = []
        ∧ (Parse V ctx (pre ++ text :: rest) scanErr).2 ≠ none)
      ∧ (∀ id lem, stateAfter V ctx 0 0 [] pre = some (id, lem) → id ≠ 0 →
          ctx pre.length = none →
          Parse V ctx (pre ++ text :: rest) scanErr = ([], some (.lexeme id err))) := by
  have htrim : TrimSpace text ≠ [] := by
    intro h
    obtain ⟨c, hc, hs⟩ := hne
    have := (trimSpace_eq_nil_iff text).mp h c hc
    simp [hs] at this
  have hnone := (atoi_eq_none_iff _).mpr hform
  have hperr := parseLine_decodeError V text err htrim hdec
  constructor
  · apply Parse_fst_of_error
    unfold Stream
    apply streamFrom_stops
    intro ctxErr lexemeID curLemma
    cases ctxErr with
    | some e => exact ⟨.ctx e, by simp [loopBody]⟩
    | none =>
      by_cases hid : lexemeID = 0
      · subst hid
        exact ⟨_, loopBody_unset V curLemma text htrim hnone⟩
      · exact ⟨_, loopBody_error V lexemeID curLemma text err htrim hnone hid hperr⟩
  · intro id lem hstate hid hctx
    apply Parse_of_error
    unfold Stream
    rw [streamFrom_append V ctx scanErr pre _ 0 0 [] id lem hstate]
    have hstep : loopBody V (ctx (0 + pre.length)) id lem text = .stop (.lexeme id err) := by
      rw [show ctx (0 + pre.length) = none by simpa using hctx]
      exact loopBody_error V id lem text err htrim hnone hid hperr
    rw [streamFrom_cons_stop V ctx scanErr _ _ _ _ _ _ hstep]

/-- Witness of C10 (amended): the third line carries the unknown grammeme `xxxx`. -/
theorem Parse_unknown_token_witness :
    (∃ c ∈ "КОТА\tNOUN,anim,xxxx".toList, isSpace c = false)
      ∧ ¬ IsIntLiteral (TrimSpace "КОТА\tNOUN,anim,xxxx".toList)
      ∧ decodeError sampleVocabulary (TrimSpace "КОТА\tNOUN,anim,xxxx".toList)
          = some (.unknownGrammeme "xxxx".toList)
      ∧ stateAfter sampleVocabulary background 0 0 [] ["1".toList, "КОТ\tNOUN,anim".toList]
          = some (1, "КОТ".toList)
      ∧ Parse sampleVocabulary background
          (["1".toList, "КОТ\tNOUN,anim".toList] ++ "КОТА\tNOUN,anim,xxxx".toList :: ["2".toList])
          none
        = ([], some (.lexeme 1 (.unknownGrammeme "xxxx".toList))) :=
  have hform : ¬ IsIntLiteral (TrimSpace "КОТА\tNOUN,anim,xxxx".toList) := by
    intro h
    have := isIntLiteral_atoi_isSome _ h
    revert this
    decide
  ⟨⟨'К', by decide, by decide⟩, hform, by decide, by decide,
    (Parse_unknown_token sampleVocabulary background ["1".toList, "КОТ\tNOUN,anim".toList]
      "КОТА\tNOUN,anim,xxxx".toList ["2".toList] none (.unknownGrammeme "xxxx".toList)
      ⟨'К', by decide, by decide⟩ hform (by decide)).2 1 "КОТ".toList (by decide) (by decide) rfl⟩

/-- Counterexample to C10 as stated: the input holds a form line whose first tag token
`VERB` is not a recognised part of speech, but the error `Parse` returns is the
sequencing error in the first input (no id line above it) and the malformed-line error
of an earlier line in the second, not the decode error. -/
theorem Parse_unknown_token_counterexample :
    decodeError sampleVocabulary "КОТ\tVERB".toList = some (.unknownPartOfSpeech "VERB".toList)
      ∧ Parse sampleVocabulary background ["КОТ\tVERB".toList] none
          = ([], some (.formBeforeID "КОТ\tVERB".toList))
      ∧ Parse sampleVocabulary background ["1".toList, "КОТ".toList, "КОТ\tVERB".toList] none
          = ([], some (.lexeme 1 (.malformed "КОТ".toList))) :=
  ⟨by decide, by decide, by decide⟩

/-! ## Well-formed input -/

theorem isBlank_iff (text : Str) : isBlank text = true ↔ TrimSpace text = [] := by
  rw [trimSpace_eq_nil_iff]
  simp [isBlank]

theorem isIntLiteral_chars (s : Str) (h : IsIntLiteral s) :
    ∀ c ∈ s, isDigit c = true ∨ c = '+' ∨ c = '-' := by
  obtain ⟨digits, _, hd, h | h | h⟩ := h
  · intro c hc
    rw [h.1] at hc
    exact Or.inl (hd c hc)
  · intro c hc
    rw [h.1] at hc
    rcases List.mem_cons.mp hc with e | e
    · exact Or.inr (Or.inl e)
    · exact Or.inl (hd c e)
  · intro c hc
    rw [h.1] at hc
    rcases List.mem_cons.mp hc with e | e
    · exact Or.inr (Or.inr e)
    · exact Or.inl (hd c e)

theorem takeWhile_before_sep (sep : Char) (a b : Str) (h : sep ∉ a) :
    (a ++ sep :: b).takeWhile (fun c => c != sep) = a := by
  induction a with
  | nil => simp
  | cons c t ih =>
    have hc : c ≠ sep := fun e => h (e ▸ List.mem_cons_self _ _)
    have ht : sep ∉ t := fun e => h (List.mem_cons_of_mem _ e)
    simp [List.takeWhile_cons, hc, ih ht]

theorem isIdLine_spec (text : Str) (h : isIdLine text = true)
    (hfit : decimalValue (TrimSpace text) < 2 ^ 63) :
    TrimSpace text ≠ [] ∧ Atoi (TrimSpace text) = some (idValue text) ∧ idValue text ≠ 0 := by
  unfold isIdLine at h
  simp only [Bool.and_eq_true, Bool.not_eq_true', List.isEmpty_eq_false, decide_eq_true_eq,
    List.all_eq_true] at h
  obtain ⟨⟨h1, h2⟩, h3⟩ := h
  refine ⟨h1, ?_, ?_⟩
  · rw [atoi_digits _ h1 h2, if_pos hfit]
    rfl
  · unfold idValue
    exact_mod_cast h3

theorem isFormLine_spec {P G : Type} [DecidableEq G] (V : Vocabulary P G) (text : Str)
    (h : isFormLine V text = true) :
    TrimSpace text ≠ [] ∧ Atoi (TrimSpace text) = none ∧ formText text ≠ [] ∧
      ∃ entry, parseLine V (TrimSpace text) = .ok entry ∧ entry.Form = formText text := by
  unfold isFormLine at h
  split at h
  · cases h
  · rename_i posToken others htag
    obtain ⟨part0, part1, hsplit, htok⟩ := tagTokens_cons_inv _ _ _ htag
    obtain ⟨hline, hsep⟩ := splitN2_eq_pair _ _ _ _ hsplit
    have hne : TrimSpace text ≠ [] := by
      rw [hline]
      simp
    have hform : formText text = TrimSpace part0 := by
      unfold formText
      rw [hline, takeWhile_before_sep _ _ _ hsep]
    have h0 := trimSpace_part0_ne_nil text part0 part1 hne hsplit
    simp only [Bool.and_eq_true, List.all_eq_true] at h
    obtain ⟨pos, hpos⟩ := Option.isSome_iff_exists.mp h.1
    obtain ⟨grammemes, hloop⟩ := grammemeLoop_total V others h.2 [] []
    refine ⟨hne, ?_, by rw [hform]; exact h0, ?_⟩
    · rw [atoi_eq_none_iff]
      intro hlit
      have hmem : '\t' ∈ TrimSpace text := by
        rw [hline]
        simp
      rcases isIntLiteral_chars _ hlit _ hmem with e | e | e
      · exact absurd e (by decide)
      · exact absurd e (by decide)
      · exact absurd e (by decide)
    · refine ⟨⟨0, [], TrimSpace part0, pos, grammemes⟩, ?_, hform.symm⟩
      rw [parseLine_of_tokens V text part0 part1 posToken others hne hsplit htok]
      simp only [hpos, hloop]

theorem streamFrom_body {P G : Type} [DecidableEq G] (V : Vocabulary P G)
    (body rest : List Str) (hbody : ∀ l ∈ body, isBlank l = true ∨ isFormLine V l = true)
    (i : Nat) (id : Int) (lem : Str) (hid : id ≠ 0) :
    ∃ (es : List (WordEntry P G)) (lem1 : Str),
      streamFrom V background none i id lem (body ++ rest)
        = (es ++ (streamFrom V background none (i + body.length) id lem1 rest).1,
            (streamFrom V background none (i + body.length) id lem1 rest).2)
      ∧ es.map WordEntry.key = (formLines body).map fun l =>
          (id, if lem = [] then formText ((formLines body).headD []) else lem, formText l) := by
  induction body generalizing i lem with
  | nil => exact ⟨[], lem, by simp, by simp [formLines]⟩
  | cons l body ih =>
    have hrest : ∀ x ∈ body, isBlank x = true ∨ isFormLine V x = true :=
      fun x hx => hbody x (List.mem_cons_of_mem _ hx)
    by_cases hb : isBlank l = true
    · obtain ⟨es, lem1, h1, h2⟩ := ih hrest (i + 1) lem
      have hstep : loopBody V (background i) id lem l = .next id lem none :=
        loopBody_blank V id lem l ((isBlank_iff l).mp hb)
      refine ⟨es, lem1, ?_, ?_⟩
      · rw [List.cons_append, streamFrom_cons_next V background none i _ _ _ _ _ _ _ hstep, h1]
        simp only [Option.toList, List.nil_append, List.length_cons]
        rw [show i + 1 + body.length = i + (body.length + 1) by omega]
      · rw [h2]
        simp [formLines, hb]
    · have hf : isFormLine V l = true := by
        rcases hbody l (List.mem_cons_self _ _) with e | e
        · exact absurd e hb
        · exact e
      obtain ⟨hne, hatoi, hft, entry, hparse, hformeq⟩ := isFormLine_spec V l hf
      have hstep := loopBody_entry V id lem l entry hne hatoi hid hparse
      have hlem1 : (if lem = [] then entry.Form else lem) ≠ [] := by
        split
        · rw [hformeq]
          exact hft
        · assumption
      obtain ⟨es, lem2, h1, h2⟩ := ih hrest (i + 1) (if lem = [] then entry.Form else lem)
      refine ⟨{ entry with Lemma := if lem = [] then entry.Form else lem, LexemeID := id } :: es,
        lem2, ?_, ?_⟩
      · rw [List.cons_append,
          streamFrom_cons_next V background none i _ _ _ _ _ _ _ hstep, h1]
        simp only [Option.toList, List.singleton_append, List.cons_append, List.length_cons,
          List.nil_append]
        rw [show i + 1 + body.length = i + (body.length + 1) by omega]
      · have hfl : formLines (l :: body) = l :: formLines body := by
          simp [formLines, hb]
        rw [hfl, List.map_cons, h2]
        rw [hformeq] at hlem1
        simp only [List.map_cons, List.headD_cons, WordEntry.key, hformeq, if_neg hlem1]

theorem streamFrom_blocks {P G : Type} [DecidableEq G] (V : Vocabulary P G)
    (blocks : List (Str × List Str))
    (hblocks : ∀ b ∈ blocks, isIdLine b.1 = true ∧ decimalValue (TrimSpace b.1) < 2 ^ 63 ∧
      ∀ l ∈ b.2, isBlank l = true ∨ isFormLine V l = true)
    (i : Nat) (id : Int) (lem : Str) :
    (streamFrom V background none i id lem (blocks.map blockLines).flatten).2 = none
      ∧ (streamFrom V background none i id lem (blocks.map blockLines).flatten).1.map WordEntry.key
          = expectedEntries blocks := by
  induction blocks generalizing i id lem with
  | nil => simp [streamFrom, expectedEntries]
  | cons b bs ih =>
    obtain ⟨hidl, hfit, hbody⟩ := hblocks b (List.mem_cons_self _ _)
    obtain ⟨hne, hatoi, hval⟩ := isIdLine_spec b.1 hidl hfit
    have hstep : loopBody V (background i) id lem b.1 = .next (idValue b.1) [] none :=
      loopBody_id V id lem b.1 _ hne hatoi
    obtain ⟨es, lem1, h1, h2⟩ :=
      streamFrom_body V b.2 (bs.map blockLines).flatten hbody (i + 1) (idValue b.1) [] hval
    obtain ⟨ih1, ih2⟩ := ih (fun x hx => hblocks x (List.mem_cons_of_mem _ hx))
      (i + 1 + b.2.length) (idValue b.1) lem1
    have hlines : ((b :: bs).map blockLines).flatten = b.1 :: (b.2 ++ (bs.map blockLines).flatten) := by
      simp [blockLines]
    rw [hlines, streamFrom_cons_next V background none i _ _ _ _ _ _ _ hstep, h1]
    refine ⟨ih1, ?_⟩
    simp only [Option.toList, List.nil_append, List.map_append, h2, ih2, if_true]
    simp [expectedEntries]

/-- C1 (amended): for an input made of blank lines followed by blocks, each block an id
line (decimal digits, value non-zero and below 2^63) followed by blank lines and
well-formed form lines, read to its end without scanner error under a signal that is
never cancelled, `Parse` returns no error and one entry per form line, in file order;
each entry has the value of the id line of its block as LexemeID, the form text of the
first form line of its block as Lemma and its own trimmed form text as Form. -/
theorem Parse_well_formed {P G : Type} [DecidableEq G] (V : Vocabulary P G)
    (pre : List Str) (blocks : List (Str × List Str))
    (hpre : ∀ l ∈ pre, isBlank l = true)
    (hblocks : ∀ b ∈ blocks, isIdLine b.1 = true ∧ decimalValue (TrimSpace b.1) < 2 ^ 63 ∧
      ∀ l ∈ b.2, isBlank l = true ∨ isFormLine V l = true) :
    (Parse V background (pre ++ (blocks.map blockLines).flatten) none).2 = none
      ∧ (Parse V background (pre ++ (blocks.map blockLines).flatten) none).1.map WordEntry.key
          = expectedEntries blocks
      ∧ (Parse V background (pre ++ (blocks.map blockLines).flatten) none).1.length
          = ((blocks.map fun b => (formLines b.2).length)).sum := by
  have hstream : Stream V background (pre ++ (blocks.map blockLines).flatten) none
      = streamFrom V background none (0 + pre.length) 0 [] (blocks.map blockLines).flatten := by
    unfold Stream
    exact streamFrom_blanks V background none pre _ (fun b hb => (isBlank_iff b).mp (hpre b hb))
      0 0 [] (fun _ _ => rfl)
  obtain ⟨h1, h2⟩ := streamFrom_blocks V blocks hblocks (0 + pre.length) 0 []
  have hs2 : (Stream V background (pre ++ (blocks.map blockLines).flatten) none).2 = none := by
    rw [hstream]
    exact h1
  have hkeys : (Parse V background (pre ++ (blocks.map blockLines).flatten) none).1.map WordEntry.key
      = expectedEntries blocks := by
    rw [Parse_of_success V _ _ _ hs2, hstream]
    exact h2
  refine ⟨by rw [Parse_of_success V _ _ _ hs2], hkeys, ?_⟩
  have hlen := congrArg List.length hkeys
  rw [List.length_map] at hlen
  rw [hlen]
  simp [expectedEntries, List.length_flatten, Function.comp_def]

/-- Witness of C1 (amended): the sample dictionary of the specification yields the three
entries (1, КОТ, КОТ), (1, КОТ, КОТА), (2, БЫСТРЫЙ, БЫСТРЫЙ) and no error. -/
theorem Parse_well_formed_witness :
    scanLines sampleText = [] ++ (sampleBlocks.map blockLines).flatten
      ∧ (∀ b ∈ sampleBlocks, isIdLine b.1 = true ∧ decimalValue (TrimSpace b.1) < 2 ^ 63 ∧
          ∀ l ∈ b.2, isBlank l = true ∨ isFormLine sampleVocabulary l = true)
      ∧ (Parse sampleVocabulary background (scanLines sampleText) none).2 = none
      ∧ (Parse sampleVocabulary background (scanLines sampleText) none).1.map WordEntry.key
          = [(1, "КОТ".toList, "КОТ".toList), (1, "КОТ".toList, "КОТА".toList),
             (2, "БЫСТРЫЙ".toList, "БЫСТРЫЙ".toList)] := by
  have hlines : scanLines sampleText = [] ++ (sampleBlocks.map blockLines).flatten := by decide
  have hblocks : ∀ b ∈ sampleBlocks, isIdLine b.1 = true ∧
      decimalValue (TrimSpace b.1) < 2 ^ 63 ∧
      ∀ l ∈ b.2, isBlank l = true ∨ isFormLine sampleVocabulary l = true := by decide
  have h := Parse_well_formed sampleVocabulary [] sampleBlocks (by decide) hblocks
  rw [← hlines] at h
  exact ⟨hlines, hblocks, h.1, h.2.1.trans (by decide)⟩

/-- Counterexample to C1 as stated: the id line of twenty nines has a non-zero decimal
value and the form line below it is well-formed, yet `Parse` returns the sequencing
error: the value does not fit the type of `LexemeID`, so the line is not taken as an id
line. -/
theorem Parse_well_formed_counterexample :
    isIdLine "99999999999999999999".toList = true
      ∧ isFormLine sampleVocabulary "КОТ\tNOUN".toList = true
      ∧ Parse sampleVocabulary background
          ["99999999999999999999".toList, "КОТ\tNOUN".toList] none
        = ([], some (.formBeforeID "99999999999999999999".toList)) :=
  ⟨by decide, by decide, by decide⟩

/-! ## Failure and cancellation -/

theorem loopBody_stop_cases {P G : Type} [DecidableEq G] (V : Vocabulary P G)
    (lexemeID : Int) (curLemma text : Str) (err : StreamError)
    (h : loopBody V none lexemeID curLemma text = .stop err) :
    (lexemeID = 0 ∧ err = .formBeforeID (TrimSpace text))
      ∨ (lexemeID ≠ 0 ∧ ∃ le, parseLine V (TrimSpace text) = .error le ∧
          err = .lexeme lexemeID le) := by
  by_cases hne : TrimSpace text = []
  · rw [loopBody_blank V lexemeID curLemma text hne] at h
    cases h
  · cases hat : Atoi (TrimSpace text) with
    | some v =>
      rw [loopBody_id V lexemeID curLemma text v hne hat] at h
      cases h
    | none =>
      by_cases hid : lexemeID = 0
      · subst hid
        rw [loopBody_unset V curLemma text hne hat] at h
        simp only [Step.stop.injEq] at h
        exact Or.inl ⟨rfl, h.symm⟩
      · cases hp : parseLine V (TrimSpace text) with
        | error le =>
          rw [loopBody_error V lexemeID curLemma text le hne hat hid hp] at h
          simp only [Step.stop.injEq] at h
          exact Or.inr ⟨hid, le, rfl, h.symm⟩
        | ok entry =>
          rw [loopBody_entry V lexemeID curLemma text entry hne hat hid hp] at h
          cases h

theorem Stream_stop_after {P G : Type} [DecidableEq G] (V : Vocabulary P G)
    (ctx : Nat → Option CtxError) (pre : List Str) (text : Str) (rest : List Str)
    (scanErr : Option ScanError) (id : Int) (lem : Str) (err : StreamError)
    (hpre : stateAfter V ctx 0 0 [] pre = some (id, lem))
    (hstop : loopBody V (ctx pre.length) id lem text = .stop err) :
    Stream V ctx (pre ++ text :: rest) scanErr = ((Stream V ctx pre none).1, some err) := by
  unfold Stream
  rw [streamFrom_append V ctx scanErr pre _ 0 0 [] id lem hpre]
  have hstop2 : loopBody V (ctx (0 + pre.length)) id lem text = .stop err := by
    rw [Nat.zero_add]
    exact hstop
  rw [streamFrom_cons_stop V ctx scanErr _ _ _ _ _ _ hstop2]
  simp

/-- C11: `Parse` never returns entries together with an error: its error is the value
of the completion signal of `Stream`, and whenever that is an error the entries returned
are none, whatever the input, the scanner and the signal do. -/
theorem Parse_no_entries_with_error {P G : Type} [DecidableEq G] (V : Vocabulary P G)
    (ctx : Nat → Option CtxError) (lines : List Str) (scanErr : Option ScanError) :
    (Parse V ctx lines scanErr).2 = (Stream V ctx lines scanErr).2
      ∧ ((Parse V ctx lines scanErr).2 = none ∨ (Parse V ctx lines scanErr).1 = [])
      ∧ ((Parse V ctx lines scanErr).2 = none →
          (Parse V ctx lines scanErr).1 = (Stream V ctx lines scanErr).1) := by
  cases hs : (Stream V ctx lines scanErr).2 with
  | none => simp [Parse, hs]
  | some err => simp [Parse, hs]

/-- C12: when the loop goes through the lines before line `k` without stopping and line
`k` stops it, the entries delivered are the entries of the lines before `k`, the
completion signal carries the error of line `k`, and neither depends on the lines after
`k` or on how the scan ends. When the signal is not cancelled at line `k`, that error is
the sequencing error (current id 0) or the error of `parseLine` on the trimmed line,
wrapped with the current id. -/
theorem Stream_fail_fast {P G : Type} [DecidableEq G] (V : Vocabulary P G)
    (ctx : Nat → Option CtxError) (pre : List Str) (text : Str) (rest : List Str)
    (scanErr : Option ScanError) (id : Int) (lem : Str) (err : StreamError)
    (hpre : stateAfter V ctx 0 0 [] pre = some (id, lem))
    (hstop : loopBody V (ctx pre.length) id lem text = .stop err) :
    Stream V ctx (pre ++ text :: rest) scanErr = ((Stream V ctx pre none).1, some err)
      ∧ (∀ rest2 scanErr2,
          Stream V ctx (pre ++ text :: rest2) scanErr2 = Stream V ctx (pre ++ text :: rest) scanErr)
      ∧ (ctx pre.length = none →
          (id = 0 ∧ err = .formBeforeID (TrimSpace text))
            ∨ (id ≠ 0 ∧ ∃ le, parseLine V (TrimSpace text) = .error le ∧ err = .lexeme id le)) := by
  have key : ∀ rest2 scanErr2,
      Stream V ctx (pre ++ text :: rest2) scanErr2 = ((Stream V ctx pre none).1, some err) := by
    intro rest2 scanErr2
    exact Stream_stop_after V ctx pre text rest2 scanErr2 id lem err hpre hstop
  refine ⟨key rest scanErr, ?_, ?_⟩
  · intro rest2 scanErr2
    rw [key rest2 scanErr2, key rest scanErr]
  · intro hctx
    rw [hctx] at hstop
    exact loopBody_stop_cases V id lem text err hstop

/-- Witness of C12: the third line has no tab; whatever follows it, one entry is
delivered and the completion signal carries the malformed-line error of that line. -/
theorem Stream_fail_fast_witness :
    stateAfter sampleVocabulary background 0 0 [] ["1".toList, "КОТ\tNOUN".toList]
        = some (1, "КОТ".toList)
      ∧ loopBody sampleVocabulary (background 2) 1 "КОТ".toList " КОТА ".toList
          = .stop (.lexeme 1 (.malformed "КОТА".toList))
      ∧ Stream sampleVocabulary background
          (["1".toList, "КОТ\tNOUN".toList] ++ " КОТА ".toList :: ["2".toList, "x".toList]) none
        = ((Stream sampleVocabulary background ["1".toList, "КОТ\tNOUN".toList] none).1,
            some (.lexeme 1 (.malformed "КОТА".toList))) :=
  ⟨by decide, by decide,
    (Stream_fail_fast sampleVocabulary background ["1".toList, "КОТ\tNOUN".toList]
      " КОТА ".toList ["2".toList, "x".toList] none 1 "КОТ".toList
      (.lexeme 1 (.malformed "КОТА".toList)) (by decide) (by decide)).1⟩

/-- C13 (amended): when the signal is found set at the check of line `k`, the loop
having gone through the lines before `k` without stopping, the entries delivered are the
entries of the lines before `k`, none comes from line `k` or a later line, and the
completion signal carries the reason of the cancellation. -/
theorem Stream_cancelled {P G : Type} [DecidableEq G] (V : Vocabulary P G)
    (ctx : Nat → Option CtxError) (pre : List Str) (text : Str) (rest : List Str)
    (scanErr : Option ScanError) (id : Int) (lem : Str) (reason : CtxError)
    (hpre : stateAfter V ctx 0 0 [] pre = some (id, lem))
    (hctx : ctx pre.length = some reason) :
    Stream V ctx (pre ++ text :: rest) scanErr
      = ((Stream V ctx pre none).1, some (.ctx reason)) := by
  have hstop : loopBody V (ctx pre.length) id lem text = .stop (.ctx reason) := by
    rw [hctx]
    simp [loopBody]
  exact Stream_stop_after V ctx pre text rest scanErr id lem _ hpre hstop

/-- Witness of C13 (amended): the signal is set after the second line has been read, one
entry having been delivered; the third line is read and the cancellation is reported. -/
theorem Stream_cancelled_witness :
    stateAfter sampleVocabulary (cancelledFrom 2) 0 0 [] ["1".toList, "КОТ\tNOUN".toList]
        = some (1, "КОТ".toList)
      ∧ cancelledFrom 2 2 = some .canceled
      ∧ Stream sampleVocabulary (cancelledFrom 2)
          (["1".toList, "КОТ\tNOUN".toList] ++ "КОТА\tNOUN".toList :: []) none
        = ((Stream sampleVocabulary (cancelledFrom 2) ["1".toList, "КОТ\tNOUN".toList] none).1,
            some (.ctx .canceled)) :=
  ⟨by decide, by decide,
    Stream_cancelled sampleVocabulary (cancelledFrom 2) ["1".toList, "КОТ\tNOUN".toList]
      "КОТА\tNOUN".toList [] none 1 "КОТ".toList .canceled (by decide) (by decide)⟩

/-- Counterexample to C13 as stated: the signal is set after one entry has been
delivered, but no line is left to read, so it is never consulted again: the completion
signal reports success, not the cancellation. -/
theorem Stream_cancelled_counterexample :
    cancelledFrom 2 2 = some .canceled
      ∧ Stream sampleVocabulary (cancelledFrom 2) ["1".toList, "КОТ\tNOUN".toList] none
        = ([{ LexemeID := 1, Lemma := "КОТ".toList, Form := "КОТ".toList, POS := 1,
              Grammemes := [] }], none) :=
  ⟨by decide, by decide⟩

theorem streamFrom_congr_ctx {P G : Type} [DecidableEq G] (V : Vocabulary P G)
    (ctx1 ctx2 : Nat → Option CtxError) (scanErr : Option ScanError) (lines : List Str)
    (i : Nat) (lexemeID : Int) (curLemma : Str)
    (h : ∀ j, j < lines.length → ctx1 (i + j) = ctx2 (i + j)) :
    streamFrom V ctx1 scanErr i lexemeID curLemma lines
      = streamFrom V ctx2 scanErr i lexemeID curLemma lines := by
  induction lines generalizing i lexemeID curLemma with
  | nil => simp [streamFrom]
  | cons t ts ih =>
    have h0 : ctx1 i = ctx2 i := by simpa using h 0 (by simp)
    have hrest : ∀ id1 lem1, streamFrom V ctx1 scanErr (i + 1) id1 lem1 ts
        = streamFrom V ctx2 scanErr (i + 1) id1 lem1 ts := by
      intro id1 lem1
      apply ih
      intro j hj
      have := h (j + 1) (by simpa using hj)
      rwa [show i + 1 + j = i + (j + 1) by omega]
    unfold streamFrom
    rw [h0]
    cases loopBody V (ctx2 i) lexemeID curLemma t with
    | stop err => rfl
    | next id1 lem1 sent => simp only [hrest]

/-- C20: the signal is consulted only when a line has been read. With the signal set
from the start, `Parse` returns zero entries and the cancellation for every input with at
least one line; for an input with no line it returns the empty sequence and no error;
and a signal that is not set while the lines are read changes nothing in what `Stream`
delivers and reports, so a signal set after the last line leaves a success a success. -/
theorem Parse_cancel_only_at_line {P G : Type} [DecidableEq G] (V : Vocabulary P G)
    (ctx : Nat → Option CtxError) (lines : List Str) (scanErr : Option ScanError) :
    (∀ reason, ctx 0 = some reason → lines ≠ [] →
        Parse V ctx lines scanErr = ([], some (.ctx reason)))
      ∧ Parse V ctx [] none = ([], none)
      ∧ ((∀ i, i < lines.length → ctx i = none) →
          Stream V ctx lines scanErr = Stream V background lines scanErr
            ∧ Parse V ctx lines scanErr = Parse V background lines scanErr) := by
  refine ⟨?_, by simp [Parse, Stream, streamFrom], ?_⟩
  · intro reason h0 hne
    cases lines with
    | nil => exact absurd rfl hne
    | cons t ts =>
      apply Parse_of_error
      unfold Stream
      have hstop : loopBody V (ctx 0) 0 [] t = .stop (.ctx reason) := by
        rw [h0]
        simp [loopBody]
      rw [streamFrom_cons_stop V ctx scanErr 0 _ _ _ _ _ hstop]
  · intro h
    have hs : Stream V ctx lines scanErr = Stream V background lines scanErr := by
      unfold Stream
      apply streamFrom_congr_ctx
      intro j hj
      simpa [background] using h j hj
    exact ⟨hs, by simp [Parse, hs]⟩

/-- Witness of C20: a signal set from the start and an input of one blank line; the
same signal and no line; a signal set after the two lines of the input. -/
theorem Parse_cancel_only_at_line_witness :
    Parse sampleVocabulary (cancelledFrom 0) ["  ".toList] none = ([], some (.ctx .canceled))
      ∧ Parse sampleVocabulary (cancelledFrom 0) [] none = ([], none)
      ∧ Stream sampleVocabulary (cancelledFrom 2) ["1".toList, "КОТ\tNOUN".toList] none
          = Stream sampleVocabulary background ["1".toList, "КОТ\tNOUN".toList] none :=
  ⟨(Parse_cancel_only_at_line sampleVocabulary (cancelledFrom 0) ["  ".toList] none).1
      .canceled (by decide) (by decide),
    (Parse_cancel_only_at_line sampleVocabulary (cancelledFrom 0) [] none).2.1,
    ((Parse_cancel_only_at_line sampleVocabulary (cancelledFrom 2)
      ["1".toList, "КОТ\tNOUN".toList] none).2.2 (by decide)).1⟩

/-! ## Normalised lines -/

theorem trimSpace_idempotent (s : Str) : TrimSpace (TrimSpace s) = TrimSpace s := by
  cases h : TrimSpace s with
  | nil => simp [TrimSpace]
  | cons c u =>
    have hc := trimSpace_head_not_space s c u h
    have hd : (c :: u).dropWhile isSpace = c :: u := by simp [List.dropWhile_cons, hc]
    have hr : (c :: u).rdropWhile isSpace = c :: u := by
      rw [← h]
      unfold TrimSpace
      exact List.rdropWhile_idempotent _ _
    unfold TrimSpace
    rw [hd, hr]

theorem loopBody_trimSpace {P G : Type} [DecidableEq G] (V : Vocabulary P G)
    (ctxErr : Option CtxError) (lexemeID : Int) (curLemma text : Str) :
    loopBody V ctxErr lexemeID curLemma (TrimSpace text)
      = loopBody V ctxErr lexemeID curLemma text := by
  unfold loopBody
  rw [trimSpace_idempotent]

theorem streamFrom_normalise {P G : Type} [DecidableEq G] (V : Vocabulary P G)
    (scanErr : Option ScanError) (lines : List Str) (i j : Nat) (lexemeID : Int)
    (curLemma : Str) :
    streamFrom V background scanErr i lexemeID curLemma lines
      = streamFrom V background scanErr j lexemeID curLemma (normalise lines) := by
  induction lines generalizing i j lexemeID curLemma with
  | nil => simp [normalise, streamFrom]
  | cons t ts ih =>
    by_cases hb : isBlank t = true
    · have hn : normalise (t :: ts) = normalise ts := by simp [normalise, hb]
      have hstep : loopBody V (background i) lexemeID curLemma t
          = .next lexemeID curLemma none :=
        loopBody_blank V lexemeID curLemma t ((isBlank_iff t).mp hb)
      rw [hn, streamFrom_cons_next V background scanErr i _ _ _ _ _ _ _ hstep,
        ih (i + 1) j lexemeID curLemma]
      simp
    · have hn : normalise (t :: ts) = TrimSpace t :: normalise ts := by
        simp [normalise, hb]
      rw [hn]
      have hbody : loopBody V (background j) lexemeID curLemma (TrimSpace t)
          = loopBody V (background i) lexemeID curLemma t :=
        loopBody_trimSpace V none lexemeID curLemma t
      cases hstep : loopBody V (background i) lexemeID curLemma t with
      | stop err =>
        rw [streamFrom_cons_stop V background scanErr i _ _ _ _ _ hstep,
          streamFrom_cons_stop V background scanErr j _ _ _ _ _ (hbody.trans hstep)]
      | next id1 lem1 sent =>
        rw [streamFrom_cons_next V background scanErr i _ _ _ _ _ _ _ hstep,
          streamFrom_cons_next V background scanErr j _ _ _ _ _ _ _ (hbody.trans hstep),
          ih (i + 1) (j + 1) id1 lem1]

/-- On scanned lines: with the same end of the scan and a never-cancelled signal, `Parse`
and `Stream` give the same result on a list of lines and on its normalisation. -/
theorem Parse_normalise_lines {P G : Type} [DecidableEq G] (V : Vocabulary P G)
    (lines : List Str) (scanErr : Option ScanError) :
    Parse V background (normalise lines) scanErr = Parse V background lines scanErr
      ∧ Stream V background (normalise lines) scanErr = Stream V background lines scanErr := by
  have hs : Stream V background (normalise lines) scanErr = Stream V background lines scanErr := by
    unfold Stream
    exact (streamFrom_normalise V scanErr lines 0 0 0 []).symm
  exact ⟨by simp [Parse, hs], hs⟩

/-! ## Malformed lines -/

theorem fieldsFrom_eq_nil {cur s : Str} (h : fieldsFrom cur s = []) :
    cur = [] ∧ ∀ c ∈ s, isSpace c = true := by
  induction s generalizing cur with
  | nil =>
    by_cases hc : cur = []
    · exact ⟨hc, by simp⟩
    · simp [fieldsFrom, hc] at h
  | cons c t ih =>
    by_cases hs : isSpace c = true
    · by_cases hc : cur = []
      · subst hc
        simp only [fieldsFrom, hs, if_true] at h
        obtain ⟨_, h2⟩ := ih h
        refine ⟨rfl, ?_⟩
        intro x hx
        rcases List.mem_cons.mp hx with e | e
        · rw [e]
          exact hs
        · exact h2 x e
      · simp [fieldsFrom, hs, hc] at h
    · simp only [fieldsFrom, hs] at h
      have := (ih h).1
      simp at this

theorem splitTokens_eq_nil_iff (s : Str) :
    splitTokens s = [] ↔ ∀ c ∈ s, c = ',' ∨ isSpace c = true := by
  unfold splitTokens Fields replaceCommas
  constructor
  · intro h c hc
    have h2 := (fieldsFrom_eq_nil h).2 (if c = ',' then ' ' else c)
      (List.mem_map.mpr ⟨c, hc, rfl⟩)
    by_cases hcomma : c = ','
    · exact Or.inl hcomma
    · simp only [hcomma, if_false] at h2
      exact Or.inr h2
  · intro h
    apply fieldsFrom_nil_of_blank
    intro x hx
    obtain ⟨c, hc, rfl⟩ := List.mem_map.mp hx
    rcases h c hc with e | e
    · simp only [e, if_true]
      decide
    · by_cases hcomma : c = ','
      · simp only [hcomma, if_true]
        decide
      · simp only [hcomma, if_false]
        exact e

theorem trimSpace_subset (s : Str) : ∀ c ∈ TrimSpace s, c ∈ s := by
  intro c hc
  unfold TrimSpace at hc
  exact (List.dropWhile_suffix isSpace).subset
    ((List.rdropWhile_prefix isSpace _).subset hc)

theorem mem_trimSpace_of_not_space (s : Str) (c : Char) (hc : c ∈ s)
    (hs : isSpace c = false) : c ∈ TrimSpace s := by
  have h1 : c ∈ s.dropWhile isSpace := by
    have := List.takeWhile_append_dropWhile isSpace s
    rw [← this] at hc
    rcases List.mem_append.mp hc with e | e
    · have := List.mem_takeWhile_imp e
      rw [hs] at this
      cases this
    · exact e
  unfold TrimSpace List.rdropWhile
  rw [List.mem_reverse]
  have h2 : c ∈ (s.dropWhile isSpace).reverse := List.mem_reverse.mpr h1
  have := List.takeWhile_append_dropWhile isSpace (s.dropWhile isSpace).reverse
  rw [← this] at h2
  rcases List.mem_append.mp h2 with e | e
  · have := List.mem_takeWhile_imp e
    rw [hs] at this
    cases this
  · exact e

theorem splitTokens_trimSpace_eq_nil_iff (s : Str) :
    splitTokens (TrimSpace s) = [] ↔ ∀ c ∈ s, c = ',' ∨ isSpace c = true := by
  rw [splitTokens_eq_nil_iff]
  constructor
  · intro h c hc
    by_cases hs : isSpace c = true
    · exact Or.inr hs
    · exact h c (mem_trimSpace_of_not_space s c hc (by simpa using hs))
  · intro h c hc
    exact h c (trimSpace_subset s c hc)

theorem dropWhile_before_sep (sep : Char) (a b : Str) (h : sep ∉ a) :
    (a ++ sep :: b).dropWhile (fun c => c != sep) = sep :: b := by
  induction a with
  | nil => simp
  | cons c t ih =>
    have hc : c ≠ sep := fun e => h (e ▸ List.mem_cons_self _ _)
    have ht : sep ∉ t := fun e => h (List.mem_cons_of_mem _ e)
    simp [List.dropWhile_cons, hc, ih ht]

theorem trimSpace_part1_ne_nil (text part0 part1 : Str) (hne : TrimSpace text ≠ [])
    (hsplit : SplitN2 '\t' (TrimSpace text) = [part0, part1]) : TrimSpace part1 ≠ [] := by
  obtain ⟨hs, _⟩ := splitN2_eq_pair _ _ _ _ hsplit
  have hlast : ¬ isSpace ((TrimSpace text).getLast hne) = true := by
    unfold TrimSpace at hne ⊢
    exact List.rdropWhile_last_not isSpace _ hne
  intro hnil
  have hall := (trimSpace_eq_nil_iff part1).mp hnil
  apply hlast
  have hne2 : part0 ++ '\t' :: part1 ≠ [] := by simp
  have : (TrimSpace text).getLast hne = (part0 ++ '\t' :: part1).getLast hne2 := by
    congr 1
  rw [this]
  cases part1 with
  | nil =>
    simp
    decide
  | cons d u =>
    have hne3 : d :: u ≠ [] := by simp
    have : (part0 ++ '\t' :: d :: u).getLast hne2 = (d :: u).getLast hne3 := by
      rw [List.getLast_append_of_ne_nil (by simp), List.getLast_cons hne3]
    rw [this]
    exact hall _ (List.getLast_mem hne3)

theorem grammemeLoop_error_kind {P G : Type} [DecidableEq G] (V : Vocabulary P G)
    (toks : List Str) (acc seen : List G) (e : LineError)
    (h : grammemeLoop V toks acc seen = .error e) : e.isMalformed = false := by
  induction toks generalizing acc seen with
  | nil => simp [grammemeLoop] at h
  | cons g rest ih =>
    unfold grammemeLoop at h
    cases hg : V.ParseGrammeme g with
    | none =>
      simp only [hg, Except.error.injEq] at h
      rw [← h]
      rfl
    | some gram =>
      simp only [hg] at h
      split at h
      · exact ih _ _ h
      · exact ih _ _ h
theorem parseLine_trimmed_cases {P G : Type} [DecidableEq G] (V : Vocabulary P G)
    (text : Str) (hne : TrimSpace text ≠ []) :
    ('\t' ∉ TrimSpace text
        ∧ parseLine V (TrimSpace text) = .error (.malformed (TrimSpace text)))
      ∨ ('\t' ∈ TrimSpace text
        ∧ (∀ c ∈ afterFirstTab (TrimSpace text), c = ',' ∨ isSpace c = true)
        ∧ parseLine V (TrimSpace text) = .error (.missingTags (TrimSpace text)))
      ∨ ('\t' ∈ TrimSpace text
        ∧ ¬ (∀ c ∈ afterFirstTab (TrimSpace text), c = ',' ∨ isSpace c = true)
        ∧ ((∃ e, parseLine V (TrimSpace text) = .error e ∧ e.isMalformed = false)
            ∨ ∃ entry, parseLine V (TrimSpace text) = .ok entry)) := by
  rcases splitN2_cases '\t' (TrimSpace text) with ⟨hno, hsplit⟩ | ⟨a, b, hline, ha, hsplit⟩
  · refine Or.inl ⟨hno, ?_⟩
    unfold parseLine
    rw [hsplit]
  · have hmem : '\t' ∈ TrimSpace text := by
      rw [hline]
      simp
    have hafter : afterFirstTab (TrimSpace text) = b := by
      unfold afterFirstTab
      rw [hline, dropWhile_before_sep _ _ _ ha]
      rfl
    have h0 := trimSpace_part0_ne_nil text a b hne hsplit
    have h1 := trimSpace_part1_ne_nil text a b hne hsplit
    cases htok : splitTokens (TrimSpace b) with
    | nil =>
      refine Or.inr (Or.inl ⟨hmem, ?_, ?_⟩)
      · rw [hafter]
        exact (splitTokens_trimSpace_eq_nil_iff b).mp htok
      · unfold parseLine
        simp only [hsplit, h0, h1, or_self, if_false, htok]
    | cons posToken others =>
      refine Or.inr (Or.inr ⟨hmem, ?_, ?_⟩)
      · rw [hafter]
        intro hall
        rw [(splitTokens_trimSpace_eq_nil_iff b).mpr hall] at htok
        cases htok
      · rw [parseLine_of_tokens V text a b posToken others hne hsplit htok]
        cases hpos : V.ParsePartOfSpeech posToken with
        | none => exact Or.inl ⟨_, rfl, rfl⟩
        | some pos =>
          cases hloop : grammemeLoop V others [] [] with
          | error e => exact Or.inl ⟨e, rfl, grammemeLoop_error_kind V others [] [] e hloop⟩
          | ok grammemes => exact Or.inr ⟨_, rfl⟩

/-- C15: on a trimmed non-blank line, `parseLine` fails with a malformed-line error
exactly when the line has no tab or the text after its first tab consists of commas and
white space only. Without a tab the error is the missing-separator one, with a tab and
no token it is the missing-tags one, both raised whatever the vocabulary; a line with a
tab has a non-empty trimmed form text and a non-empty trimmed tag text, so the
empty-form-or-tags error is never the one raised. -/
theorem parseLine_malformed_iff {P G : Type} [DecidableEq G] (V : Vocabulary P G)
    (text : Str) (hne : TrimSpace text ≠ []) :
    ((∃ e, parseLine V (TrimSpace text) = .error e ∧ e.isMalformed = true) ↔
        ('\t' ∉ TrimSpace text
          ∨ ∀ c ∈ afterFirstTab (TrimSpace text), c = ',' ∨ isSpace c = true))
      ∧ ('\t' ∉ TrimSpace text →
          parseLine V (TrimSpace text) = .error (.malformed (TrimSpace text)))
      ∧ ('\t' ∈ TrimSpace text →
          (∀ c ∈ afterFirstTab (TrimSpace text), c = ',' ∨ isSpace c = true) →
          parseLine V (TrimSpace text) = .error (.missingTags (TrimSpace text)))
      ∧ ('\t' ∈ TrimSpace text →
          ∃ part0 part1, SplitN2 '\t' (TrimSpace text) = [part0, part1] ∧
            TrimSpace part0 ≠ [] ∧ TrimSpace part1 ≠ [])
      ∧ (∀ l, parseLine V (TrimSpace text) ≠ .error (.emptyFormOrTags l)) := by
  have hcases := parseLine_trimmed_cases V text hne
  refine ⟨⟨?_, ?_⟩, ?_, ?_, ?_, ?_⟩
  · rintro ⟨e, he, hm⟩
    rcases hcases with ⟨h1, _⟩ | ⟨_, h2, _⟩ | ⟨_, _, ⟨e2, he2, hm2⟩ | ⟨entry, hok⟩⟩
    · exact Or.inl h1
    · exact Or.inr h2
    · rw [he2] at he
      simp only [Except.error.injEq] at he
      rw [he, hm] at hm2
      cases hm2
    · rw [hok] at he
      cases he
  · intro h
    rcases hcases with ⟨_, h1⟩ | ⟨_, _, h2⟩ | ⟨hmem, hnot, _⟩
    · exact ⟨_, h1, rfl⟩
    · exact ⟨_, h2, rfl⟩
    · rcases h with h | h
      · exact absurd hmem h
      · exact absurd h hnot
  · intro hno
    rcases hcases with ⟨_, h1⟩ | ⟨hmem, _⟩ | ⟨hmem, _⟩
    · exact h1
    · exact absurd hmem hno
    · exact absurd hmem hno
  · intro hmem hall
    rcases hcases with ⟨hno, _⟩ | ⟨_, _, h2⟩ | ⟨_, hnot, _⟩
    · exact absurd hmem hno
    · exact h2
    · exact absurd hall hnot
  · intro hmem
    rcases splitN2_cases '\t' (TrimSpace text) with ⟨hno, _⟩ | ⟨a, b, _, _, hsplit⟩
    · exact absurd hmem hno
    · exact ⟨a, b, hsplit, trimSpace_part0_ne_nil text a b hne hsplit,
        trimSpace_part1_ne_nil text a b hne hsplit⟩
  · intro l hl
    rcases hcases with ⟨_, h1⟩ | ⟨_, _, h2⟩ | ⟨_, _, ⟨e2, he2, hm2⟩ | ⟨entry, hok⟩⟩
    · rw [h1] at hl
      cases hl
    · rw [h2] at hl
      cases hl
    · rw [he2] at hl
      simp only [Except.error.injEq] at hl
      rw [hl] at hm2
      cases hm2
    · rw [hok] at hl
      cases hl

/-- Witness of C15: a line whose tag text is a lone comma yields no token and gets the
missing-tags error. -/
theorem parseLine_malformed_iff_witness :
    TrimSpace " КОТ\t , ".toList ≠ []
      ∧ '\t' ∈ TrimSpace " КОТ\t , ".toList
      ∧ (∀ c ∈ afterFirstTab (TrimSpace " КОТ\t , ".toList), c = ',' ∨ isSpace c = true)
      ∧ parseLine sampleVocabulary (TrimSpace " КОТ\t , ".toList)
          = .error (.missingTags "КОТ\t ,".toList) :=
  ⟨by decide, by decide, by decide,
    (parseLine_malformed_iff sampleVocabulary " КОТ\t , ".toList (by decide)).2.2.1
      (by decide) (by decide)⟩

/-! ## The state of the loop -/

theorem atoi_nil : Atoi [] = none := by
  simp [Atoi]

theorem loopBody_next_cases {P G : Type} [DecidableEq G] (V : Vocabulary P G)
    (ctxErr : Option CtxError) (lexemeID : Int) (curLemma text : Str) (id2 : Int)
    (lem2 : Str) (sent : Option (WordEntry P G))
    (h : loopBody V ctxErr lexemeID curLemma text = .next id2 lem2 sent) :
    ctxErr = none ∧
      ((TrimSpace text = [] ∧ id2 = lexemeID ∧ lem2 = curLemma ∧ sent = none)
        ∨ (TrimSpace text ≠ [] ∧ Atoi (TrimSpace text) = some id2 ∧ lem2 = [] ∧ sent = none)
        ∨ (TrimSpace text ≠ [] ∧ Atoi (TrimSpace text) = none ∧ lexemeID ≠ 0 ∧ id2 = lexemeID ∧
            ∃ entry, parseLine V (TrimSpace text) = .ok entry ∧
              lem2 = (if curLemma = [] then entry.Form else curLemma) ∧
              sent = some { entry with Lemma := lem2, LexemeID := lexemeID })) := by
  cases ctxErr with
  | some e => simp [loopBody] at h
  | none =>
    refine ⟨rfl, ?_⟩
    by_cases hne : TrimSpace text = []
    · rw [loopBody_blank V lexemeID curLemma text hne] at h
      simp only [Step.next.injEq] at h
      exact Or.inl ⟨hne, h.1.symm, h.2.1.symm, h.2.2.symm⟩
    · cases hat : Atoi (TrimSpace text) with
      | some v =>
        rw [loopBody_id V lexemeID curLemma text v hne hat] at h
        simp only [Step.next.injEq] at h
        exact Or.inr (Or.inl ⟨hne, by rw [h.1], h.2.1.symm, h.2.2.symm⟩)
      | none =>
        by_cases hid : lexemeID = 0
        · subst hid
          rw [loopBody_unset V curLemma text hne hat] at h
          cases h
        · cases hp : parseLine V (TrimSpace text) with
          | error le =>
            rw [loopBody_error V lexemeID curLemma text le hne hat hid hp] at h
            cases h
          | ok entry =>
            rw [loopBody_entry V lexemeID curLemma text entry hne hat hid hp] at h
            simp only [Step.next.injEq] at h
            obtain ⟨h1, h2, h3⟩ := h
            refine Or.inr (Or.inr ⟨hne, rfl, hid, h1.symm, entry, rfl, h2.symm, ?_⟩)
            rw [← h3, h2]

theorem stateAfter_cons {P G : Type} [DecidableEq G] (V : Vocabulary P G)
    (ctx : Nat → Option CtxError) (t : Str) (ts : List Str) (i : Nat) (lexemeID : Int)
    (curLemma : Str) :
    stateAfter V ctx i lexemeID curLemma (t :: ts)
      = match loopBody V (ctx i) lexemeID curLemma t with
        | .stop _ => none
        | .next id1 lem1 _ => stateAfter V ctx (i + 1) id1 lem1 ts := by
  rw [stateAfter]

theorem stateAfter_append {P G : Type} [DecidableEq G] (V : Vocabulary P G)
    (ctx : Nat → Option CtxError) (a b : List Str) (i : Nat) (lexemeID : Int)
    (curLemma : Str) :
    stateAfter V ctx i lexemeID curLemma (a ++ b)
      = match stateAfter V ctx i lexemeID curLemma a with
        | none => none
        | some s => stateAfter V ctx (i + a.length) s.1 s.2 b := by
  induction a generalizing i lexemeID curLemma with
  | nil => simp [stateAfter]
  | cons t ts ih =>
    rw [List.cons_append, stateAfter_cons, stateAfter_cons]
    cases loopBody V (ctx i) lexemeID curLemma t with
    | stop err => rfl
    | next id1 lem1 sent =>
      simp only
      rw [ih, List.length_cons, show i + (ts.length + 1) = i + 1 + ts.length by omega]

theorem stateAfter_snoc_some {P G : Type} [DecidableEq G] (V : Vocabulary P G)
    (ctx : Nat → Option CtxError) (a : List Str) (t : Str) (i : Nat) (lexemeID : Int)
    (curLemma : Str) (id2 : Int) (lem2 : Str)
    (h : stateAfter V ctx i lexemeID curLemma (a ++ [t]) = some (id2, lem2)) :
    ∃ id1 lem1 sent, stateAfter V ctx i lexemeID curLemma a = some (id1, lem1) ∧
      loopBody V (ctx (i + a.length)) id1 lem1 t = .next id2 lem2 sent := by
  rw [stateAfter_append] at h
  cases hs : stateAfter V ctx i lexemeID curLemma a with
  | none => simp [hs] at h
  | some s =>
    simp only [hs, stateAfter] at h
    cases hb : loopBody V (ctx (i + a.length)) s.1 s.2 t with
    | stop err => simp [hb] at h
    | next id3 lem3 sent =>
      simp only [hb, Option.some.injEq, Prod.mk.injEq] at h
      exact ⟨s.1, s.2, sent, rfl, by rw [← h.1, ← h.2]; exact hb⟩

theorem lastIdValue_snoc (a : List Str) (t : Str) :
    lastIdValue (a ++ [t])
      = match Atoi (TrimSpace t) with
        | some v => v
        | none => lastIdValue a := by
  unfold lastIdValue
  rw [List.reverse_append, List.reverse_singleton, List.singleton_append, List.filterMap_cons]
  cases Atoi (TrimSpace t) with
  | none => rfl
  | some v => rfl

theorem stateAfter_id_eq {P G : Type} [DecidableEq G] (V : Vocabulary P G)
    (ctx : Nat → Option CtxError) (pre : List Str) (id : Int) (lem : Str)
    (h : stateAfter V ctx 0 0 [] pre = some (id, lem)) : id = lastIdValue pre := by
  induction pre using List.reverseRecOn generalizing id lem with
  | nil =>
    simp only [stateAfter, Option.some.injEq, Prod.mk.injEq] at h
    rw [← h.1]
    rfl
  | append_singleton a t ih =>
    obtain ⟨id1, lem1, sent, hs, hb⟩ := stateAfter_snoc_some V ctx a t 0 0 [] id lem h
    have ih1 := ih id1 lem1 hs
    rw [lastIdValue_snoc]
    obtain ⟨_, hc | hc | hc⟩ := loopBody_next_cases V _ _ _ _ _ _ _ hb
    · rw [hc.1, atoi_nil]
      rw [hc.2.1]
      exact ih1
    · rw [hc.2.1]
    · rw [hc.2.1, hc.2.2.2.1]
      exact ih1

theorem lastIdValue_eq_zero_iff (pre : List Str) :
    lastIdValue pre = 0 ↔
      (∀ l ∈ pre, Atoi (TrimSpace l) = none)
        ∨ ∃ a idl b, pre = a ++ idl :: b ∧ Atoi (TrimSpace idl) = some 0 ∧
            ∀ l ∈ b, Atoi (TrimSpace l) = none := by
  induction pre using List.reverseRecOn with
  | nil =>
    constructor
    · intro _
      exact Or.inl (by simp)
    · intro _
      rfl
  | append_singleton a t ih =>
    rw [lastIdValue_snoc]
    cases hat : Atoi (TrimSpace t) with
    | none =>
      simp only
      rw [ih]
      constructor
      · rintro (h | ⟨x, idl, y, hx, hidl, hy⟩)
        · left
          intro l hl
          rcases List.mem_append.mp hl with e | e
          · exact h l e
          · rw [List.mem_singleton.mp e]
            exact hat
        · right
          refine ⟨x, idl, y ++ [t], by rw [hx]; simp, hidl, ?_⟩
          intro l hl
          rcases List.mem_append.mp hl with e | e
          · exact hy l e
          · rw [List.mem_singleton.mp e]
            exact hat
      · rintro (h | ⟨x, idl, y, hx, hidl, hy⟩)
        · exact Or.inl fun l hl => h l (List.mem_append_left _ hl)
        · rcases List.eq_nil_or_concat y with e | ⟨y2, t2, e⟩
          · subst e
            have := List.append_inj_right' (show a ++ [t] = x ++ [idl] from hx) rfl
            simp only [List.cons.injEq, and_true] at this
            rw [this, hidl] at hat
            cases hat
          · rw [List.concat_eq_append] at e
            subst e
            have hx2 : a ++ [t] = (x ++ idl :: y2) ++ [t2] := by
              rw [hx]
              simp
            have h1 := List.append_inj_left' hx2 rfl
            right
            exact ⟨x, idl, y2, h1, hidl, fun l hl => hy l (List.mem_append_left _ hl)⟩
    | some v =>
      simp only
      constructor
      · intro hv
        right
        refine ⟨a, t, [], rfl, by rw [hat, hv], by simp⟩
      · rintro (h | ⟨x, idl, y, hx, hidl, hy⟩)
        · have := h t (by simp)
          rw [hat] at this
          cases this
        · rcases List.eq_nil_or_concat y with e | ⟨y2, t2, e⟩
          · subst e
            have := List.append_inj_right' (show a ++ [t] = x ++ [idl] from hx) rfl
            simp only [List.cons.injEq, and_true] at this
            rw [this, hidl] at hat
            simp only [Option.some.injEq] at hat
            exact hat.symm
          · rw [List.concat_eq_append] at e
            subst e
            have hx2 : a ++ [t] = (x ++ idl :: y2) ++ [t2] := by
              rw [hx]
              simp
            have h2 := List.append_inj_right' hx2 rfl
            simp only [List.cons.injEq, and_true] at h2
            have := hy t2 (by simp)
            rw [← h2, hat] at this
            cases this

/-- C18: a form line (a non-blank line that `strconv.Atoi` rejects) that the loop
reaches with the signal not cancelled is rejected with the sequencing error exactly when
the current id is 0. The current id is the value of the most recent id line, 0 when
there is none; so it is 0 exactly when no id line has been read or the most recent one
has value 0, and then `Stream` stops at the form line with the sequencing error after
the entries of the lines before it. -/
theorem Stream_sequencing_iff {P G : Type} [DecidableEq G] (V : Vocabulary P G)
    (ctx : Nat → Option CtxError) (pre : List Str) (text : Str) (id : Int) (lem : Str)
    (hpre : stateAfter V ctx 0 0 [] pre = some (id, lem))
    (hctx : ctx pre.length = none)
    (hne : TrimSpace text ≠ []) (hform : Atoi (TrimSpace text) = none) :
    id = lastIdValue pre
      ∧ ((∃ l, loopBody V (ctx pre.length) id lem text = .stop (.formBeforeID l)) ↔
          lastIdValue pre = 0)
      ∧ (lastIdValue pre = 0 → ∀ rest scanErr,
          Stream V ctx (pre ++ text :: rest) scanErr
            = ((Stream V ctx pre none).1, some (.formBeforeID (TrimSpace text))))
      ∧ (lastIdValue pre = 0 ↔
          (∀ l ∈ pre, Atoi (TrimSpace l) = none)
            ∨ ∃ a idl b, pre = a ++ idl :: b ∧ Atoi (TrimSpace idl) = some 0 ∧
                ∀ l ∈ b, Atoi (TrimSpace l) = none) := by
  have hid := stateAfter_id_eq V ctx pre id lem hpre
  have hstop0 : lastIdValue pre = 0 →
      loopBody V (ctx pre.length) id lem text = .stop (.formBeforeID (TrimSpace text)) := by
    intro h0
    rw [hctx, hid, h0]
    exact loopBody_unset V lem text hne hform
  refine ⟨hid, ⟨?_, fun h0 => ⟨_, hstop0 h0⟩⟩, ?_, lastIdValue_eq_zero_iff pre⟩
  · rintro ⟨l, hl⟩
    rw [hctx] at hl
    rcases loopBody_stop_cases V id lem text _ hl with ⟨h0, _⟩ | ⟨_, le, _, he⟩
    · rw [← hid]
      exact h0
    · cases he
  · intro h0 rest scanErr
    exact Stream_stop_after V ctx pre text rest scanErr id lem _ hpre (hstop0 h0)

/-- Witness of C18: in the input `5`, `КОТ<TAB>NOUN`, `0`, `КОТА<TAB>NOUN` the id line of
value 0 closes the block, and the fourth line is rejected with the sequencing error
after the entry of the second line. -/
theorem Stream_sequencing_iff_witness :
    scanLines "5\nКОТ\tNOUN\n0\nКОТА\tNOUN\n".toList
        = ["5".toList, "КОТ\tNOUN".toList, "0".toList] ++ "КОТА\tNOUN".toList :: []
      ∧ stateAfter sampleVocabulary background 0 0 []
          ["5".toList, "КОТ\tNOUN".toList, "0".toList] = some (0, [])
      ∧ lastIdValue ["5".toList, "КОТ\tNOUN".toList, "0".toList] = 0
      ∧ Stream sampleVocabulary background
          (["5".toList, "КОТ\tNOUN".toList, "0".toList] ++ "КОТА\tNOUN".toList :: []) none
        = ((Stream sampleVocabulary background
              ["5".toList, "КОТ\tNOUN".toList, "0".toList] none).1,
            some (.formBeforeID (TrimSpace "КОТА\tNOUN".toList))) :=
  ⟨by decide, by decide, by decide,
    (Stream_sequencing_iff sampleVocabulary background
      ["5".toList, "КОТ\tNOUN".toList, "0".toList] "КОТА\tNOUN".toList 0 []
      (by decide) (by decide) (by decide) (by decide)).2.2.1 (by decide) [] none⟩

/-! ## The block stamp of the entries -/

theorem upto_append_since (lines : List Str) :
    uptoLastId lines ++ sinceLastId lines = lines := by
  unfold uptoLastId sinceLastId List.rdropWhile List.rtakeWhile
  rw [← List.reverse_append, List.takeWhile_append_dropWhile, List.reverse_reverse]

theorem sinceLastId_no_id (lines : List Str) :
    ∀ m ∈ sinceLastId lines, Atoi (TrimSpace m) = none := by
  intro m hm
  have := List.mem_rtakeWhile_imp hm
  simpa using this

theorem uptoLastId_last (lines : List Str) (hne : uptoLastId lines ≠ []) :
    ∃ a t v, uptoLastId lines = a ++ [t] ∧ Atoi (TrimSpace t) = some v := by
  have hlast := List.rdropWhile_last_not
    (fun l : Str => (Atoi (TrimSpace l)).isNone) lines hne
  obtain ⟨v, hv⟩ := Option.isSome_iff_exists.mp
    (by simpa [Option.isSome_iff_ne_none] using hlast :
      (Atoi (TrimSpace ((uptoLastId lines).getLast hne))).isSome = true)
  exact ⟨(uptoLastId lines).dropLast, (uptoLastId lines).getLast hne, v,
    (List.dropLast_append_getLast hne).symm, hv⟩

theorem stateAfter_upto_lemma {P G : Type} [DecidableEq G] (V : Vocabulary P G)
    (ctx : Nat → Option CtxError) (lines : List Str) (id0 : Int) (lem0 : Str)
    (h : stateAfter V ctx 0 0 [] (uptoLastId lines) = some (id0, lem0)) : lem0 = [] := by
  by_cases hne : uptoLastId lines = []
  · rw [hne] at h
    simp only [stateAfter, Option.some.injEq, Prod.mk.injEq] at h
    exact h.2.symm
  · obtain ⟨a, t, v, ha, hv⟩ := uptoLastId_last lines hne
    rw [ha] at h
    obtain ⟨id1, lem1, sent, _, hb⟩ := stateAfter_snoc_some V ctx a t 0 0 [] id0 lem0 h
    obtain ⟨_, hc | hc | hc⟩ := loopBody_next_cases V _ _ _ _ _ _ _ hb
    · rw [hc.1, atoi_nil] at hv
      cases hv
    · exact hc.2.2.1
    · rw [hc.2.1] at hv
      cases hv

theorem streamFrom_no_id {P G : Type} [DecidableEq G] (V : Vocabulary P G)
    (ctx : Nat → Option CtxError) (mid : List Str)
    (hmid : ∀ m ∈ mid, Atoi (TrimSpace m) = none) (i : Nat) (id : Int) (lem : Str)
    (id1 : Int) (lem1 : Str) (h : stateAfter V ctx i id lem mid = some (id1, lem1)) :
    id1 = id
      ∧ (∀ x ∈ (streamFrom V ctx none i id lem mid).1,
          x.LexemeID = id ∧ x.Lemma = lem1 ∧ x.Form ≠ [])
      ∧ (lem ≠ [] → lem1 = lem)
      ∧ (lem = [] →
          lem1 = (((streamFrom V ctx none i id lem mid).1.head?).map (·.Form)).getD []) := by
  induction mid generalizing i lem with
  | nil =>
    simp only [stateAfter, Option.some.injEq, Prod.mk.injEq] at h
    refine ⟨h.1.symm, by simp [streamFrom], fun _ => h.2.symm, ?_⟩
    intro hl
    simp [streamFrom, ← h.2, hl]
  | cons t ts ih =>
    have hts : ∀ m ∈ ts, Atoi (TrimSpace m) = none :=
      fun m hm => hmid m (List.mem_cons_of_mem _ hm)
    rw [stateAfter_cons] at h
    cases hb : loopBody V (ctx i) id lem t with
    | stop err => simp [hb] at h
    | next id2 lem2 sent =>
      simp only [hb] at h
      rw [streamFrom_cons_next V ctx none i _ _ _ _ _ _ _ hb]
      obtain ⟨_, hc | hc | hc⟩ := loopBody_next_cases V _ _ _ _ _ _ _ hb
      · obtain ⟨_, h2, h3, h4⟩ := hc
        rw [h2, h3] at h
        rw [h2, h3, h4]
        simpa using ih hts (i + 1) lem h
      · have := hmid t (List.mem_cons_self _ _)
        rw [hc.2.1] at this
        cases this
      · obtain ⟨_, _, _, h2, entry, hp, h3, h4⟩ := hc
        obtain ⟨part0, _, _, _, _, _, _, hf0, _, _, _, _, hentry⟩ := parseLine_ok_inv V _ _ hp
        have hform : entry.Form ≠ [] := by
          rw [hentry]
          exact hf0
        have hlem2 : lem2 ≠ [] := by
          rw [h3]
          split
          · exact hform
          · assumption
        subst h2
        obtain ⟨i1, i2, i3, _⟩ := ih hts (i + 1) lem2 h
        have h13 : lem1 = lem2 := i3 hlem2
        subst h4
        refine ⟨i1, ?_, ?_, ?_⟩
        · intro x hx
          simp only [Option.toList, List.singleton_append, List.mem_cons] at hx
          rcases hx with e | e
          · rw [e]
            exact ⟨rfl, h13.symm, hform⟩
          · exact i2 x e
        · intro hl
          rw [h13, h3, if_neg hl]
        · intro hl
          rw [h13, h3, if_pos hl]
          simp

theorem streamFrom_locate {P G : Type} [DecidableEq G] (V : Vocabulary P G)
    (ctx : Nat → Option CtxError) (scanErr : Option ScanError) (lines : List Str)
    (i : Nat) (id : Int) (lem : Str) (es1 : List (WordEntry P G)) (e : WordEntry P G)
    (es2 : List (WordEntry P G))
    (h : (streamFrom V ctx scanErr i id lem lines).1 = es1 ++ e :: es2) :
    ∃ pre text rest id1 lem1 id2 lem2, lines = pre ++ text :: rest ∧
      stateAfter V ctx i id lem pre = some (id1, lem1) ∧
      (streamFrom V ctx none i id lem pre).1 = es1 ∧
      loopBody V (ctx (i + pre.length)) id1 lem1 text = .next id2 lem2 (some e) := by
  induction lines generalizing i id lem es1 with
  | nil =>
    cases scanErr <;> simp [streamFrom] at h
  | cons t ts ih =>
    cases hb : loopBody V (ctx i) id lem t with
    | stop err =>
      rw [streamFrom_cons_stop V ctx scanErr i _ _ _ _ _ hb] at h
      simp at h
    | next id3 lem3 sent =>
      rw [streamFrom_cons_next V ctx scanErr i _ _ _ _ _ _ _ hb] at h
      simp only at h
      have hrec : ∀ es, (streamFrom V ctx scanErr (i + 1) id3 lem3 ts).1 = es ++ e :: es2 →
          (streamFrom V ctx none i id lem [t]).1 ++ es = es1 →
          ∃ pre text rest id1 lem1 id2 lem2, t :: ts = pre ++ text :: rest ∧
            stateAfter V ctx i id lem pre = some (id1, lem1) ∧
            (streamFrom V ctx none i id lem pre).1 = es1 ∧
            loopBody V (ctx (i + pre.length)) id1 lem1 text = .next id2 lem2 (some e) := by
        intro es hes hes1
        obtain ⟨pre, text, rest, id1, lem1, id2, lem2, hl, hs, hp, hstep⟩ :=
          ih (i + 1) id3 lem3 es hes
        refine ⟨t :: pre, text, rest, id1, lem1, id2, lem2, by rw [hl]; rfl, ?_, ?_, ?_⟩
        · rw [stateAfter_cons, hb]
          exact hs
        · rw [streamFrom_cons_next V ctx none i _ _ _ _ _ _ _ hb, hp, ← hes1,
            streamFrom_cons_next V ctx none i _ _ _ _ _ _ _ hb]
          simp [streamFrom]
        · rw [List.length_cons, show i + (pre.length + 1) = i + 1 + pre.length by omega]
          exact hstep
      cases sent with
      | none =>
        apply hrec es1
        · simpa using h
        · rw [streamFrom_cons_next V ctx none i _ _ _ _ _ _ _ hb]
          simp [streamFrom]
      | some e0 =>
        simp only [Option.toList, List.singleton_append] at h
        cases es1 with
        | nil =>
          simp only [List.nil_append, List.cons.injEq] at h
          refine ⟨[], t, ts, id, lem, id3, lem3, rfl, by simp [stateAfter],
            by simp [streamFrom], ?_⟩
          rw [← h.1]
          simpa using hb
        | cons x xs =>
          simp only [List.cons_append, List.cons.injEq] at h
          apply hrec xs h.2
          rw [streamFrom_cons_next V ctx none i _ _ _ _ _ _ _ hb]
          simp [streamFrom, h.1]

/-- C16: every entry `Stream` delivers, on any input and under any signal, comes from a
line of the input and carries the block stamp: its LexemeID is the value of the most
recent id line above that line and is not 0, its Form is the trimmed form text of the
line, non-empty and without leading or trailing white space, and its Lemma is non-empty
and is the Form of the first entry delivered since that id line; all the entries
delivered since that id line have the same LexemeID and the same Lemma. -/
theorem Stream_entries_stamped {P G : Type} [DecidableEq G] (V : Vocabulary P G)
    (ctx : Nat → Option CtxError) (lines : List Str) (scanErr : Option ScanError)
    (es1 : List (WordEntry P G)) (e : WordEntry P G) (es2 : List (WordEntry P G))
    (h : (Stream V ctx lines scanErr).1 = es1 ++ e :: es2) :
    ∃ pre text rest,
      lines = pre ++ text :: rest
        ∧ (Stream V ctx pre none).1 = es1
        ∧ e.LexemeID = lastIdValue pre ∧ e.LexemeID ≠ 0
        ∧ e.Form = formText text ∧ e.Form ≠ [] ∧ TrimSpace e.Form = e.Form
        ∧ e.Lemma ≠ []
        ∧ ∃ since, es1 = (Stream V ctx (uptoLastId pre) none).1 ++ since
            ∧ e.Lemma = ((since ++ [e]).headD e).Form
            ∧ ∀ x ∈ since, x.LexemeID = e.LexemeID ∧ x.Lemma = e.Lemma := by
  obtain ⟨pre, text, rest, id1, lem1, id2, lem2, hl, hs, hp, hstep⟩ :=
    streamFrom_locate V ctx scanErr lines 0 0 [] es1 e es2 h
  obtain ⟨_, hc | hc | hc⟩ := loopBody_next_cases V _ _ _ _ _ _ _ hstep
  · cases hc.2.2.2
  · cases hc.2.2.2
  · obtain ⟨hne, _, hid1, _, entry, hparse, h3, h4⟩ := hc
    obtain ⟨part0, part1, _, _, _, _, hsplit, hf0, _, _, _, _, hentry⟩ :=
      parseLine_ok_inv V _ _ hparse
    obtain ⟨hline, hsep⟩ := splitN2_eq_pair _ _ _ _ hsplit
    have hform : entry.Form = TrimSpace part0 := by rw [hentry]
    have hft : formText text = TrimSpace part0 := by
      unfold formText
      rw [hline, takeWhile_before_sep _ _ _ hsep]
    simp only [Option.some.injEq] at h4
    have heid : e.LexemeID = id1 := by rw [h4]
    have helem : e.Lemma = lem2 := by rw [h4]
    have heform : e.Form = entry.Form := by rw [h4]
    have hlem2 : lem2 ≠ [] := by
      rw [h3]
      split
      · rw [hform]
        exact hf0
      · assumption
    have hs2 : stateAfter V ctx 0 0 [] (uptoLastId pre ++ sinceLastId pre)
        = some (id1, lem1) := by
      rw [upto_append_since]
      exact hs
    rw [stateAfter_append] at hs2
    cases hs0 : stateAfter V ctx 0 0 [] (uptoLastId pre) with
    | none => simp [hs0] at hs2
    | some s0 =>
      simp only [hs0] at hs2
      have hlem0 : s0.2 = [] := stateAfter_upto_lemma V ctx pre s0.1 s0.2 hs0
      rw [hlem0] at hs2
      obtain ⟨r1, r2, _, r4⟩ := streamFrom_no_id V ctx (sinceLastId pre)
        (sinceLastId_no_id pre) _ s0.1 [] id1 lem1 hs2
      have happ := streamFrom_append V ctx none (uptoLastId pre) (sinceLastId pre) 0 0 []
        s0.1 s0.2 hs0
      rw [upto_append_since, hlem0] at happ
      have hes1 : es1 = (Stream V ctx (uptoLastId pre) none).1
          ++ (streamFrom V ctx none (0 + (uptoLastId pre).length) s0.1 []
                (sinceLastId pre)).1 := by
        rw [← hp, happ]
        rfl
      refine ⟨pre, text, rest, hl, hp, ?_, ?_, ?_, ?_, ?_, ?_, _, hes1, ?_, ?_⟩
      · rw [heid]
        exact stateAfter_id_eq V ctx pre id1 lem1 hs
      · rw [heid]
        exact hid1
      · rw [heform, hform, hft]
      · rw [heform, hform]
        exact hf0
      · rw [heform, hform]
        exact trimSpace_idempotent part0
      · rw [helem]
        exact hlem2
      · have hl1 := r4 rfl
        cases hsince : (streamFrom V ctx none (0 + (uptoLastId pre).length) s0.1 []
            (sinceLastId pre)).1 with
        | nil =>
          rw [hsince] at hl1
          simp only [List.head?_nil, Option.map_none', Option.getD_none] at hl1
          rw [helem, h3, if_pos hl1]
          simp [heform]
        | cons x0 xs =>
          rw [hsince] at hl1
          simp only [List.head?_cons, Option.map_some', Option.getD_some] at hl1
          have hx0 := (r2 x0 (by rw [hsince]; exact List.mem_cons_self _ _)).2.2
          have hne1 : lem1 ≠ [] := by
            rw [hl1]
            exact hx0
          rw [helem, h3, if_neg hne1, hl1]
          simp
      · intro x hx
        have hx2 := r2 x hx
        have hne1 : lem1 ≠ [] := by
          cases hsince : (streamFrom V ctx none (0 + (uptoLastId pre).length) s0.1 []
              (sinceLastId pre)).1 with
          | nil =>
            rw [hsince] at hx
            cases hx
          | cons x0 xs =>
            have hl1 := r4 rfl
            rw [hsince] at hl1
            simp only [List.head?_cons, Option.map_some', Option.getD_some] at hl1
            rw [hl1]
            exact (r2 x0 (by rw [hsince]; exact List.mem_cons_self _ _)).2.2
        refine ⟨?_, ?_⟩
        · rw [heid, hx2.1, r1]
        · rw [helem, h3, if_neg hne1]
          exact hx2.2.1

/-- Witness of C16: the second entry of the sample dictionary comes from a line below
the id line of value 1 and carries that value. -/
theorem Stream_entries_stamped_witness :
    (Stream sampleVocabulary background sampleLines none).1
        = [{ sampleSecond with Form := "КОТ".toList, Grammemes := [1, 2, 3, 4] }]
            ++ sampleSecond
            :: [{ LexemeID := 2, Lemma := "БЫСТРЫЙ".toList, Form := "БЫСТРЫЙ".toList,
                  POS := 2, Grammemes := [] }]
      ∧ ∃ pre text rest, sampleLines = pre ++ text :: rest
          ∧ sampleSecond.LexemeID = lastIdValue pre ∧ sampleSecond.LexemeID ≠ 0
          ∧ sampleSecond.Form = formText text :=
  have h : (Stream sampleVocabulary background sampleLines none).1
      = [{ sampleSecond with Form := "КОТ".toList, Grammemes := [1, 2, 3, 4] }]
          ++ sampleSecond
          :: [{ LexemeID := 2, Lemma := "БЫСТРЫЙ".toList, Form := "БЫСТРЫЙ".toList,
                POS := 2, Grammemes := [] }] := by decide
  ⟨h, by
    obtain ⟨pre, text, rest, h1, _, h3, h4, h5, _⟩ :=
      Stream_entries_stamped sampleVocabulary background sampleLines none _ _ _ h
    exact ⟨pre, text, rest, h1, h3, h4, h5⟩⟩

/-! ## The two modes of the command-line tool -/

theorem SearchByLemmaAndPOS_eq_filter {P G : Type} [DecidableEq P]
    (sameFold : Char → Char → Bool) (entries : List (WordEntry P G)) (lemmaText : Str)
    (pos : P) (hne : TrimSpace lemmaText ≠ []) :
    SearchByLemmaAndPOS sameFold entries lemmaText pos
      = entries.filter
          (fun e => decide (e.POS = pos) && EqualFold sameFold e.Lemma (TrimSpace lemmaText)) := by
  unfold SearchByLemmaAndPOS
  simp only [hne, if_false, appendLoop_eq_filter, List.nil_append]

theorem consumeLoop_printed {P G : Type} [DecidableEq P] (sameFold : Char → Char → Bool)
    (lemmaText : Str) (pos : P) (hasPOS : Bool) (limit : Int)
    (entries : List (WordEntry P G)) (count : Int) :
    (consumeLoop sameFold lemmaText pos hasPOS limit entries count).1
      = emitLoop limit
          (entries.filter fun e =>
            (decide (lemmaText = []) || EqualFold sameFold e.Lemma lemmaText)
              && (!hasPOS || decide (e.POS = pos)))
          count := by
  induction entries generalizing count with
  | nil => simp [consumeLoop, emitLoop]
  | cons e rest ih =>
    unfold consumeLoop
    by_cases h1 : lemmaText ≠ [] ∧ EqualFold sameFold e.Lemma lemmaText = false
    · rw [if_pos h1]
      have hk : ((decide (lemmaText = []) || EqualFold sameFold e.Lemma lemmaText)
          && (!hasPOS || decide (e.POS = pos))) = false := by
        simp [h1.1, h1.2]
      rw [List.filter_cons, hk]
      simpa using ih count
    · rw [if_neg h1]
      have hk1 : (decide (lemmaText = []) || EqualFold sameFold e.Lemma lemmaText) = true := by
        by_cases hl : lemmaText = []
        · simp [hl]
        · have h0 : ¬ EqualFold sameFold e.Lemma lemmaText = false := fun h => h1 ⟨hl, h⟩
          have h0t : EqualFold sameFold e.Lemma lemmaText = true := by simpa using h0
          simp [h0t]
      by_cases h2 : hasPOS = true ∧ e.POS ≠ pos
      · rw [if_pos h2]
        have hk : ((decide (lemmaText = []) || EqualFold sameFold e.Lemma lemmaText)
            && (!hasPOS || decide (e.POS = pos))) = false := by
          simp [h2.1, h2.2]
        rw [List.filter_cons, hk]
        simpa using ih count
      · rw [if_neg h2]
        have hk2 : (!hasPOS || decide (e.POS = pos)) = true := by
          by_cases hp : hasPOS = true
          · have : e.POS = pos := by
              by_contra hne
              exact h2 ⟨hp, hne⟩
            simp [this]
          · simp [hp]
        rw [List.filter_cons, hk1, hk2]
        simp only [Bool.and_self, if_true]
        unfold emitLoop
        by_cases h3 : 0 < limit ∧ limit ≤ count + 1
        · rw [if_pos h3, if_pos h3]
        · rw [if_neg h3, if_neg h3]
          simp only
          rw [ih (count + 1)]

/-- The two modes print the same entries when the dictionary parses without error and
the lemma, when a part of speech is given with it, has no leading or trailing white
space. -/
theorem runInMemory_eq_runStream_of_trimmed {P G : Type} [DecidableEq P] [DecidableEq G]
    (V : Vocabulary P G) (sameFold : Char → Char → Bool) (ctx : Nat → Option CtxError)
    (lines : List Str) (scanErr : Option ScanError) (lemmaText : Str) (pos : P)
    (hasPOS : Bool) (grams : List G) (limit : Int)
    (hparse : (Parse V ctx lines scanErr).2 = none)
    (htrim : hasPOS = true → TrimSpace lemmaText = lemmaText) :
    runInMemory V sameFold ctx lines scanErr lemmaText pos hasPOS grams limit
      = (runStream V sameFold ctx lines scanErr lemmaText pos hasPOS grams limit).printed := by
  have hs2 : (Stream V ctx lines scanErr).2 = none := by
    cases hs : (Stream V ctx lines scanErr).2 with
    | none => rfl
    | some err => simp [Parse, hs] at hparse
  have hP : Parse V ctx lines scanErr = ((Stream V ctx lines scanErr).1, none) :=
    Parse_of_success V ctx lines scanErr hs2
  have hgm : ∀ x : List (WordEntry P G),
      (if grams.length > 0 then FilterByGrammemes x grams else x)
        = x.filter (fun e => decide (∀ g ∈ grams, g ∈ e.Grammemes)) := by
    intro x
    by_cases hg : grams.length > 0
    · rw [if_pos hg, FilterByGrammemes_eq_filter]
    · have : grams = [] := List.length_eq_zero.mp (by omega)
      subst this
      simp
  have hprinted : (runStream V sameFold ctx lines scanErr lemmaText pos hasPOS grams limit).printed
      = emitLoop limit
          (((Stream V ctx lines scanErr).1.filter
              (fun e => decide (∀ g ∈ grams, g ∈ e.Grammemes))).filter fun e =>
            (decide (lemmaText = []) || EqualFold sameFold e.Lemma lemmaText)
              && (!hasPOS || decide (e.POS = pos)))
          0 := by
    unfold runStream
    by_cases hg : grams.length > 0
    · simp only [hg, if_true, consumeLoop_printed, FilterStreamByGrammemes_eq_filter]
    · have : grams = [] := List.length_eq_zero.mp (by omega)
      subst this
      simp [consumeLoop_printed]
  rw [hprinted]
  unfold runInMemory
  rw [hP]
  simp only [hgm, emitEntries]
  congr 1
  by_cases hl : lemmaText = []
  · subst hl
    cases hasPOS with
    | false => simp
    | true =>
      simp only [filterPOS, appendLoop_eq_filter, List.nil_append, List.filter_filter]
      simp
  · cases hasPOS with
    | false =>
      simp only [filterLemma, appendLoop_eq_filter, List.nil_append, List.filter_filter]
      simp [hl]
    | true =>
      have ht := htrim rfl
      have hne : TrimSpace lemmaText ≠ [] := by
        rw [ht]
        exact hl
      have hcond : lemmaText ≠ [] ∧ true = true := ⟨hl, rfl⟩
      have hcond2 : ¬ (lemmaText ≠ [] ∧ true = false) := fun h => by cases h.2
      have hcond3 : ¬ (true = true ∧ lemmaText = []) := fun h => hl h.2
      rw [if_pos hcond, if_neg hcond2, if_neg hcond3,
        SearchByLemmaAndPOS_eq_filter sameFold _ lemmaText pos hne, ht,
        List.filter_filter, List.filter_filter]
      apply List.filter_congr
      intro e _
      rw [Bool.eq_iff_iff]
      simp [hl]
      tauto

/-- C19 (defect in the code): on a dictionary that parses without error, the lemma ` кот`
with a leading blank and the noun code, the in-memory mode prints the two forms of the
lexeme `КОТ` (its search trims the lemma) and the streaming mode prints nothing (it
compares the untrimmed lemma). -/
theorem runInMemory_ne_runStream_untrimmed :
    (Parse sampleVocabulary background sampleLines none).2 = none
      ∧ (runInMemory sampleVocabulary sampleFold background sampleLines none
          " кот".toList 1 true [] 0).map WordEntry.key
        = [(1, "КОТ".toList, "КОТ".toList), (1, "КОТ".toList, "КОТА".toList)]
      ∧ (runStream sampleVocabulary sampleFold background sampleLines none
          " кот".toList 1 true [] 0).printed = [] :=
  ⟨by decide, by decide, by decide⟩

/-- C17 (defect in the code): on the sample dictionary with limit 1, `runStream` prints
one entry and leaves its loop without cancelling the context or draining the channel;
the goroutine of `StreamFile` is left with entries that nobody takes, so the wait on the
completion channel does not return. The same happens behind the grammeme filter. -/
theorem runStream_limit_blocks :
    runStream sampleVocabulary sampleFold background sampleLines none [] 0 false [] 1
        = { printed := [{ sampleSecond with Form := "КОТ".toList, Grammemes := [1, 2, 3, 4] }],
            completes := false }
      ∧ (runStream sampleVocabulary sampleFold background sampleLines none [] 0 false [1] 1).completes
          = false :=
  ⟨by decide, by decide⟩

/-! ## Composition of grammeme filters -/

/-- C21: filtering by the grammemes `A` and then by the grammemes `B` gives what
filtering by `A ++ B` gives, for every entry sequence and all lists `A` and `B` (empty
ones included); in particular filtering twice by the same list changes nothing more, and
two filters can be applied in either order. -/
theorem FilterByGrammemes_compose {P G : Type} [DecidableEq G]
    (xs : List (WordEntry P G)) (A B : List G) :
    FilterByGrammemes (FilterByGrammemes xs A) B = FilterByGrammemes xs (A ++ B)
      ∧ FilterByGrammemes (FilterByGrammemes xs A) A = FilterByGrammemes xs A
      ∧ FilterByGrammemes (FilterByGrammemes xs A) B
          = FilterByGrammemes (FilterByGrammemes xs B) A := by
  simp only [FilterByGrammemes_eq_filter, List.filter_filter]
  refine ⟨?_, ?_, ?_⟩
  · apply List.filter_congr
    intro e _
    rw [Bool.eq_iff_iff]
    simp only [Bool.and_eq_true, decide_eq_true_eq, List.mem_append]
    constructor
    · rintro ⟨hb, ha⟩ g (h | h)
      · exact ha g h
      · exact hb g h
    · intro h
      exact ⟨fun g hg => h g (Or.inr hg), fun g hg => h g (Or.inl hg)⟩
  · apply List.filter_congr
    intro e _
    rw [Bool.and_self]
  · apply List.filter_congr
    intro e _
    rw [Bool.and_comm]

/-! ## The scanner on a text -/

theorem byteLen_nil : byteLen [] = 0 := rfl

theorem byteLen_cons (c : Char) (s : Str) : byteLen (c :: s) = c.utf8Size + byteLen s := by
  simp [byteLen]

theorem byteLen_append (a b : Str) : byteLen (a ++ b) = byteLen a + byteLen b := by
  simp [byteLen]

theorem byteLen_le_of_sublist {a b : Str} (h : a.Sublist b) : byteLen a ≤ byteLen b := by
  unfold byteLen
  exact List.Sublist.sum_le_sum (h.map _) (fun _ _ => Nat.zero_le _)

theorem byteLen_replicate_blank (n : Nat) : byteLen (List.replicate n ' ') = n := by
  induction n with
  | zero => rfl
  | succ k ih =>
    rw [List.replicate_succ, byteLen_cons, ih]
    have : Char.utf8Size ' ' = 1 := by decide
    omega

theorem dropCR_sublist (s : Str) : (dropCR s).Sublist s := by
  unfold dropCR
  split
  · exact List.dropLast_sublist s
  · exact List.Sublist.refl s

theorem dropCR_of_trimmed (text : Str) (hne : TrimSpace text ≠ []) :
    dropCR (TrimSpace text) = TrimSpace text := by
  have hlast : ¬ isSpace ((TrimSpace text).getLast hne) = true := by
    unfold TrimSpace at hne ⊢
    exact List.rdropWhile_last_not isSpace _ hne
  unfold dropCR
  rw [List.getLast?_eq_getLast _ hne]
  split
  · rename_i h
    simp only [Option.some.injEq] at h
    rw [h] at hlast
    exact absurd (by decide) hlast
  · rfl

theorem trimSpace_sublist (s : Str) : (TrimSpace s).Sublist s := by
  unfold TrimSpace
  exact (List.rdropWhile_prefix isSpace _).sublist.trans (List.dropWhile_suffix isSpace).sublist

theorem scanFrom_line (l rest : Str) (h : '\n' ∉ l) (cur : Str) (size : Nat) :
    scanFrom cur size (l ++ rest) = scanFrom (cur ++ l) (size + byteLen l) rest := by
  induction l generalizing cur size with
  | nil => simp [byteLen_nil]
  | cons c t ih =>
    have hc : c ≠ '\n' := fun e => h (e ▸ List.mem_cons_self _ _)
    have ht : '\n' ∉ t := fun e => h (List.mem_cons_of_mem _ e)
    rw [List.cons_append, scanFrom, if_neg hc, ih ht, byteLen_cons]
    simp [Nat.add_assoc]

theorem scanLinesFrom_line (l rest : Str) (h : '\n' ∉ l) (cur : Str) :
    scanLinesFrom cur (l ++ rest) = scanLinesFrom (cur ++ l) rest := by
  induction l generalizing cur with
  | nil => simp
  | cons c t ih =>
    have hc : c ≠ '\n' := fun e => h (e ▸ List.mem_cons_self _ _)
    have ht : '\n' ∉ t := fun e => h (List.mem_cons_of_mem _ e)
    rw [List.cons_append, scanLinesFrom, if_neg hc, ih ht]
    simp

theorem joinLines_cons (l : Str) (ls : List Str) :
    joinLines (l :: ls) = l ++ '\n' :: joinLines ls := by
  simp [joinLines]

theorem scanText_joinLines_cons (l : Str) (ls : List Str) (h : '\n' ∉ l) :
    scanText (joinLines (l :: ls))
      = if maxTokenSize ≤ byteLen l then ([], some .tooLong)
        else (dropCR l :: (scanText (joinLines ls)).1, (scanText (joinLines ls)).2) := by
  unfold scanText
  rw [joinLines_cons, scanFrom_line l _ h, scanFrom]
  simp

theorem scanLines_joinLines (ls : List Str) (h : ∀ l ∈ ls, '\n' ∉ l) :
    scanLines (joinLines ls) = ls.map dropCR := by
  induction ls with
  | nil => simp [scanLines, joinLines, scanLinesFrom]
  | cons l t ih =>
    have hl := h l (List.mem_cons_self _ _)
    have ht : ∀ x ∈ t, '\n' ∉ x := fun x hx => h x (List.mem_cons_of_mem _ hx)
    unfold scanLines at ih ⊢
    rw [joinLines_cons, scanLinesFrom_line l _ hl, scanLinesFrom]
    simp [ih ht]

theorem scanText_joinLines_short (ls : List Str)
    (h : ∀ l ∈ ls, '\n' ∉ l ∧ byteLen l < maxTokenSize ∧ dropCR l = l) :
    scanText (joinLines ls) = (ls, none) := by
  induction ls with
  | nil => simp [scanText, joinLines, scanFrom]
  | cons l t ih =>
    obtain ⟨h1, h2, h3⟩ := h l (List.mem_cons_self _ _)
    rw [scanText_joinLines_cons l t h1, if_neg (by omega),
      ih (fun x hx => h x (List.mem_cons_of_mem _ hx)), h3]

theorem scanFrom_lines (text cur : Str) (size : Nat)
    (h : (scanFrom cur size text).2 = none) :
    (scanFrom cur size text).1 = scanLinesFrom cur text := by
  induction text generalizing cur size with
  | nil =>
    unfold scanFrom at h ⊢
    unfold scanLinesFrom
    by_cases hc : cur = []
    · simp [hc]
    · by_cases hs : maxTokenSize ≤ size
      · simp [hc, hs] at h
      · simp [hc, hs]
  | cons c cs ih =>
    unfold scanFrom at h ⊢
    unfold scanLinesFrom
    by_cases hc : c = '\n'
    · by_cases hs : maxTokenSize ≤ size
      · simp [hc, hs] at h
      · simp only [hc, if_true, hs, if_false] at h ⊢
        rw [ih [] 0 h]
    · simp only [hc, if_false] at h ⊢
      exact ih _ _ h

theorem scanFrom_sizes (text cur : Str) (size : Nat) (hsize : size = byteLen cur)
    (h : (scanFrom cur size text).2 = none) :
    ∀ l ∈ (scanFrom cur size text).1, byteLen l < maxTokenSize := by
  induction text generalizing cur size with
  | nil =>
    unfold scanFrom at h ⊢
    by_cases hc : cur = []
    · simp [hc]
    · by_cases hs : maxTokenSize ≤ size
      · simp [hc, hs] at h
      · simp only [hc, if_false, hs, List.mem_singleton]
        intro l hl
        rw [hl]
        have := byteLen_le_of_sublist (dropCR_sublist cur)
        omega
  | cons c cs ih =>
    unfold scanFrom at h ⊢
    by_cases hc : c = '\n'
    · by_cases hs : maxTokenSize ≤ size
      · simp [hc, hs] at h
      · simp only [hc, if_true, hs, if_false] at h ⊢
        intro l hl
        rcases List.mem_cons.mp hl with e | e
        · rw [e]
          have := byteLen_le_of_sublist (dropCR_sublist cur)
          omega
        · exact ih [] 0 rfl h l e
    · simp only [hc, if_false] at h ⊢
      exact ih _ _ (by rw [byteLen_append, byteLen_cons, byteLen_nil, hsize]; omega) h

theorem scanLinesFrom_no_newline (text cur : Str) (hcur : '\n' ∉ cur) :
    ∀ l ∈ scanLinesFrom cur text, '\n' ∉ l := by
  induction text generalizing cur with
  | nil =>
    unfold scanLinesFrom
    by_cases hc : cur = []
    · simp [hc]
    · simp only [hc, if_false, List.mem_singleton]
      intro l hl hm
      rw [hl] at hm
      exact hcur ((dropCR_sublist cur).subset hm)
  | cons c cs ih =>
    unfold scanLinesFrom
    by_cases hc : c = '\n'
    · simp only [hc, if_true]
      intro l hl
      rcases List.mem_cons.mp hl with e | e
      · intro hm
        rw [e] at hm
        exact hcur ((dropCR_sublist cur).subset hm)
      · exact ih [] (by simp) l e
    · simp only [hc, if_false]
      apply ih
      intro hm
      rcases List.mem_append.mp hm with e | e
      · exact hcur e
      · exact hc (List.mem_singleton.mp e).symm
theorem normalise_cons (l : Str) (ls : List Str) :
    normalise (l :: ls)
      = if isBlank l = true then normalise ls else TrimSpace l :: normalise ls := by
  by_cases h : isBlank l = true
  · simp [normalise, h]
  · simp [normalise, h]

theorem isBlank_of_sublist {a b : Str} (h : a.Sublist b) (hb : isBlank b = true) :
    isBlank a = true := by
  unfold isBlank at hb ⊢
  rw [List.all_eq_true] at hb ⊢
  exact fun c hc => hb c (h.subset hc)

theorem isBlank_replicate_blank (n : Nat) : isBlank (List.replicate n ' ') = true := by
  unfold isBlank
  rw [List.all_eq_true]
  intro c hc
  rw [(List.mem_replicate.mp hc).2]
  decide

theorem not_mem_replicate_blank (n : Nat) : '\n' ∉ List.replicate n ' ' := by
  intro h
  exact absurd (List.mem_replicate.mp h).2 (by decide)

theorem scanText_normaliseText (text : Str) (hscan : (scanText text).2 = none) :
    scanText (normaliseText text) = (normalise (scanLines text), none) := by
  have hlines : (scanText text).1 = scanLines text := scanFrom_lines text [] 0 hscan
  have hsizes := scanFrom_sizes text [] 0 rfl hscan
  unfold normaliseText
  apply scanText_joinLines_short
  intro n hn
  unfold normalise at hn
  obtain ⟨l, hl, rfl⟩ := List.mem_map.mp hn
  obtain ⟨hmem, hnb⟩ := List.mem_filter.mp hl
  have hne : TrimSpace l ≠ [] := by
    intro e
    have := (isBlank_iff l).mpr e
    simp [this] at hnb
  refine ⟨?_, ?_, dropCR_of_trimmed l hne⟩
  · intro hm
    exact scanLinesFrom_no_newline text [] (by simp) l hmem ((trimSpace_sublist l).subset hm)
  · have h1 : byteLen l < maxTokenSize := by
      apply hsizes
      unfold scanText at hlines
      rw [hlines]
      exact hmem
    have h2 := byteLen_le_of_sublist (trimSpace_sublist l)
    omega

/-- C14 (amended): for every input text that the scanner of `Stream` reads to its end
without error (no line reaches the token limit of 4 MiB), under a never-cancelled signal
`Parse` returns the same entries and the same error on the text and on its
normalisation (blank lines deleted, the other lines stripped of leading and trailing
white space); the normalised text is read without scanner error too. -/
theorem ParseText_normalise {P G : Type} [DecidableEq G] (V : Vocabulary P G)
    (text : Str) (hscan : (scanText text).2 = none) :
    ParseText V background (normaliseText text) = ParseText V background text
      ∧ (scanText (normaliseText text)).2 = none := by
  have hlines : (scanText text).1 = scanLines text := scanFrom_lines text [] 0 hscan
  have hnorm := scanText_normaliseText text hscan
  refine ⟨?_, by rw [hnorm]⟩
  unfold ParseText
  rw [hnorm, hscan, hlines]
  exact (Parse_normalise_lines V (scanLines text) none).1

/-- Witness of C14 (amended): an input with carriage returns, blank lines and padded
lines gives the entry of its normalisation. -/
theorem ParseText_normalise_witness :
    (scanText paddedText).2 = none
      ∧ normaliseText paddedText = "1\nКОТ\tNOUN,anim\n".toList
      ∧ ParseText sampleVocabulary background (normaliseText paddedText)
          = ParseText sampleVocabulary background paddedText :=
  ⟨by decide, by decide, (ParseText_normalise sampleVocabulary paddedText (by decide)).1⟩

theorem scanText_longBlankText :
    scanText longBlankText = (["1".toList], some .tooLong) := by
  have hbig : maxTokenSize ≤ byteLen longBlankLine := by
    unfold longBlankLine
    rw [byteLen_replicate_blank]
    decide
  unfold longBlankText
  rw [scanText_joinLines_cons _ _ (by decide), if_neg (by decide),
    scanText_joinLines_cons longBlankLine _ (not_mem_replicate_blank _), if_pos hbig]
  rfl

theorem normaliseText_longBlankText :
    normaliseText longBlankText = "1\nКОТ\tNOUN\n".toList := by
  have hlines : scanLines longBlankText
      = ["1".toList, dropCR longBlankLine, "КОТ\tNOUN".toList] := by
    unfold longBlankText
    rw [scanLines_joinLines _ (by
      intro l hl
      simp only [List.mem_cons, List.mem_singleton, List.not_mem_nil, or_false] at hl
      rcases hl with e | e | e
      · rw [e]
        decide
      · rw [e]
        exact not_mem_replicate_blank _
      · rw [e]
        decide)]
    rfl
  have hblank : isBlank (dropCR longBlankLine) = true :=
    isBlank_of_sublist (dropCR_sublist _) (isBlank_replicate_blank _)
  unfold normaliseText
  rw [hlines, normalise_cons, if_neg (by decide), normalise_cons, if_pos hblank]
  rfl

/-- Counterexample to C14 as stated: on the input with an id line, a blank line of five
mebibytes and a form line the scanner stops at the blank line with `bufio.ErrTooLong`
and `Parse` returns the scan error; on its normalisation, where the blank line is
deleted, `Parse` returns the entry of the form line and no error. -/
theorem ParseText_normalise_counterexample :
    ParseText sampleVocabulary background longBlankText = ([], some (.scan .tooLong))
      ∧ ParseText sampleVocabulary background (normaliseText longBlankText)
          = ([{ LexemeID := 1, Lemma := "КОТ".toList, Form := "КОТ".toList, POS := 1,
                Grammemes := [] }], none) := by
  constructor
  · unfold ParseText
    rw [scanText_longBlankText]
    decide
  · rw [normaliseText_longBlankText]
    decide

end OpenCorpora
